import Mathlib

/-!
Verification of the i18next → ICU translation-tree converter

This file is a shallow embedding of `src/converter.js` of the
`i18next2icu` repository, together with proofs about the conversion
algorithm.

The JavaScript code operates on parsed JSON/YAML values.  We model such a
value as `JValue`: strings, numbers (modelled as integers — the claims
under study only involve integer literals), booleans, null, arrays, and
objects.  A JavaScript object is modelled by its own-property list in
insertion order.  The three object operations the converter uses are
embedded faithfully: `Object.entries` is `jsEntries` (array-index keys
are hoisted to the front in ascending numeric order), property
assignment `o[k] = v` is `jsAssign` (an own-key update-in-place /
append via `setKey`, except that assigning `__proto__` invokes the
inherited accessor and creates no own key), and the truthiness test
`!pluralGroups[baseKey]` also consults the inherited `Object.prototype`
members (`protoNames`), which are all truthy.  One caveat is stated
rather than modelled: when a base key is an inherited member, the write
`pluralGroups[baseKey][form] = value` mutates a built-in object (for
base `__proto__`, `Object.prototype` itself, a global pollution that
can change later truthiness reads); the bridge theorems and the
conditional claims therefore hypothesise `safeKey`/`safeL`, under which
no such write occurs.

Alongside the faithful definitions, `...P`-suffixed definitions give
the plain-object model of the same loops (pure insertion order,
key-absence truthiness, plain assignment); the ordering and membership
lemma stack is proved over them, and the bridge theorems
(`groupPlurals_eq_P`, `convertTranslations_eq_P`, ...) show the two
models agree on `safeL` trees.

The two regex rewrites of the source,
`text.replace(/\{\{([^}]+)\}\}/g, '{$1}')` and
`text.replace(/\$t\(([^)]+)\)/g, ...)`, are modelled as left-to-right
scanners over the character list: at each position the regex engine
attempts a match; on success the replacement is emitted and scanning
resumes after the match, on failure the scanner advances one character.
Since the capture classes `[^}]+` / `[^)]+` cannot cross their closing
character, the greedy capture is exactly the maximal run computed by
`takeWhile`, with no backtracking possible.
-/

/-- A parsed JSON/YAML value, as consumed by `convertTranslations`.
Numbers are modelled as integers; the object variant is an ordered
association list (JS object in insertion order). -/
inductive JValue where
  | str (s : String) : JValue
  | num (n : Int) : JValue
  | bool (b : Bool) : JValue
  | null : JValue
  | arr (elems : List JValue) : JValue
  | obj (entries : List (String × JValue)) : JValue
  deriving Repr

/-- Character class `[^}]` of the interpolation regex. -/
def notRBrace (c : Char) : Bool := c ≠ '}'

/-- Character class `[^)]` of the nesting regex. -/
def notRParen (c : Char) : Bool := c ≠ ')'

theorem length_dropWhile_le (p : Char → Bool) (l : List Char) :
    (l.dropWhile p).length ≤ l.length := by
  induction l with
  | nil => simp
  | cons c rest ih =>
    by_cases h : p c
    · simp only [List.dropWhile_cons, h, if_true, List.length_cons]
      omega
    · simp [List.dropWhile_cons, h]

/-- One attempt of the regex tail `([^}]+)\}\}` after the scanner has seen
`{{`: the greedy capture is the maximal `}`-free run; the attempt succeeds
iff that run is non-empty and is followed by `}}`.  Returns the capture
and the remainder after the match. -/
def interpStep (l : List Char) : Option (List Char × List Char) :=
  if (l.takeWhile notRBrace).isEmpty then none
  else
    match l.dropWhile notRBrace with
    | '}' :: '}' :: rest => some (l.takeWhile notRBrace, rest)
    | _ => none

theorem interpStep_length {l run rest : List Char}
    (h : interpStep l = some (run, rest)) : rest.length + 2 ≤ l.length := by
  unfold interpStep at h
  split at h
  · exact absurd h (by simp)
  · split at h
    · rename_i heq
      have hd := length_dropWhile_le notRBrace l
      rw [heq] at hd
      simp only [List.length_cons] at hd
      cases h
      omega
    · exact absurd h (by simp)

/-- Scanner for `text.replace(/\{\{([^}]+)\}\}/g, '{$1}')` over the
characters of `text`: on a match, emit `{` + capture + `}` and continue
after the match; otherwise emit one character and advance. -/
def interpAux : List Char → List Char
  | [] => []
  | '{' :: '{' :: l =>
    if h : (interpStep l).isSome then
      '{' :: (((interpStep l).get h).1 ++ '}' :: interpAux ((interpStep l).get h).2)
    else '{' :: interpAux ('{' :: l)
  | c :: rest => c :: interpAux rest
termination_by l => l.length
decreasing_by
  · obtain ⟨⟨run, rest⟩, heq⟩ := Option.isSome_iff_exists.mp h
    have hlen := interpStep_length heq
    simp only [heq, Option.get_some, List.length_cons]
    omega
  · simp
  · simp

/-- `convertInterpolation` of `src/converter.js`:
`text.replace(/\{\{([^}]+)\}\}/g, '{$1}')` (on strings; the JS function
returns non-strings unchanged, which is handled at the call sites). -/
def convertInterpolation (s : String) : String :=
  String.mk (interpAux s.data)

/-- One attempt of the regex tail `([^)]+)\)` after the scanner has seen
`$t(`. -/
def nestStep (l : List Char) : Option (List Char × List Char) :=
  if (l.takeWhile notRParen).isEmpty then none
  else
    match l.dropWhile notRParen with
    | ')' :: rest => some (l.takeWhile notRParen, rest)
    | _ => none

theorem nestStep_length {l run rest : List Char}
    (h : nestStep l = some (run, rest)) : rest.length + 1 ≤ l.length := by
  unfold nestStep at h
  split at h
  · exact absurd h (by simp)
  · split at h
    · rename_i heq
      have hd := length_dropWhile_le notRParen l
      rw [heq] at hd
      simp only [List.length_cons] at hd
      cases h
      omega
    · exact absurd h (by simp)

/-- Scanner for `text.replace(/\$t\(([^)]+)\)/g, (m, key) => `[REF:` +
key + `]`)`. -/
def nestAux : List Char → List Char
  | [] => []
  | '$' :: 't' :: '(' :: l =>
    if h : (nestStep l).isSome then
      '[' :: 'R' :: 'E' :: 'F' :: ':' ::
        (((nestStep l).get h).1 ++ ']' :: nestAux ((nestStep l).get h).2)
    else '$' :: nestAux ('t' :: '(' :: l)
  | c :: rest => c :: nestAux rest
termination_by l => l.length
decreasing_by
  · obtain ⟨⟨run, rest⟩, heq⟩ := Option.isSome_iff_exists.mp h
    have hlen := nestStep_length heq
    simp only [heq, Option.get_some, List.length_cons]
    omega
  · simp
  · simp

/-- `convertNesting` of `src/converter.js` (string case). -/
def convertNesting (s : String) : String :=
  String.mk (nestAux s.data)

-- sanity checks
example : convertInterpolation "Hello {{name}}!" = "Hello {name}!" := by
  simp [convertInterpolation, interpAux, interpStep, notRBrace]

example : convertNesting "See $t(other.key)" = "See [REF:other.key]" := by
  simp [convertNesting, nestAux, nestStep, notRParen]

example : convertInterpolation "{count, plural, other{{n}}}" = "{count, plural, other{n}}" := by
  simp [convertInterpolation, interpAux, interpStep, notRBrace]

/-- The six recognized plural-suffix forms, in the order of the regex
alternation `(zero|one|two|few|many|other)`. -/
def pluralForms : List String := ["zero", "one", "two", "few", "many", "other"]

/-- The character class of `.` in a JavaScript regex without the `s`
flag: any character except the four line terminators. -/
def dotChar (c : Char) : Bool :=
  !(c = '\n' || c = '\r' || c = Char.ofNat 0x2028 || c = Char.ofNat 0x2029)

/-- `parsePluralKey` of `src/converter.js`:
`key.match(/^(.+)_(zero|one|two|few|many|other)$/)`, returning
`(baseKey, form)` on a match.  The greedy `(.+)` takes the longest base
such that the rest of the key is `_` followed by exactly one of the six
forms, so candidate split positions are tried from the right. -/
def parsePluralKey (key : String) : Option (String × String) :=
  (List.range key.length).reverse.findSome? (fun b =>
    if 1 ≤ b && (key.data.take b).all dotChar && key.data[b]? == some '_'
        && pluralForms.contains (String.mk (key.data.drop (b + 1)))
    then some (String.mk (key.data.take b), String.mk (key.data.drop (b + 1)))
    else none)

example : parsePluralKey "item_zero" = some ("item", "zero") := by decide
example : parsePluralKey "item" = none := by decide
example : parsePluralKey "a_one_two" = some ("a_one", "two") := by decide

/-- Own-property update on an insertion-ordered property list: an
existing key keeps its position and gets the new value, a fresh key is
appended at the end.  (JS object keys are unique, so updating the first
occurrence is the general-association-list reading of the same
operation.)  This is the data-property case of JavaScript assignment;
the full assignment semantics, including the inherited `__proto__`
accessor, is `jsAssign` below. -/
def setKey {α : Type} : List (String × α) → String → α → List (String × α)
  | [], k, v => [(k, v)]
  | (k', v') :: rest, k, v =>
    if k' = k then (k, v) :: rest else (k', v') :: setKey rest k v

/-- JavaScript `Array.prototype.join` with a given separator, over
already-stringified elements (`[s1, s2, ...].join(sep)`). -/
def joinSep (sep : String) : List String → String
  | [] => ""
  | [s] => s
  | s :: rest => s ++ sep ++ joinSep sep rest

/-- JavaScript `Array.prototype.join(",")` / array-to-string coercion,
used when a template literal stringifies an array: `null` elements
become the empty string, other elements are converted recursively. -/
def jsArrJoin : List JValue → String
  | [] => ""
  | [.null] => ""
  | [.str s] => s
  | [.num n] => toString n
  | [.bool b] => if b then "true" else "false"
  | [.obj _] => "[object Object]"
  | [.arr elems] => jsArrJoin elems
  | .null :: rest => "," ++ jsArrJoin rest
  | .str s :: rest => s ++ "," ++ jsArrJoin rest
  | .num n :: rest => toString n ++ "," ++ jsArrJoin rest
  | .bool b :: rest => (if b then "true" else "false") ++ "," ++ jsArrJoin rest
  | .obj _ :: rest => "[object Object]" ++ "," ++ jsArrJoin rest
  | .arr elems :: rest => jsArrJoin elems ++ "," ++ jsArrJoin rest
termination_by l => sizeOf l
decreasing_by all_goals (simp; try omega)

/-- JavaScript `ToString` as performed by a template literal
`${value}`, for the values that can occur here. -/
def jsToString : JValue → String
  | .str s => s
  | .num n => toString n
  | .bool b => if b then "true" else "false"
  | .null => "null"
  | .obj _ => "[object Object]"
  | .arr elems => jsArrJoin elems

/-- The fixed `formMapping` table of `createICUPlural`. -/
def formMapping : List (String × String) :=
  [("zero", "=0"), ("one", "one"), ("two", "two"),
   ("few", "few"), ("many", "many"), ("other", "other")]

/-- `formMapping[form] || form`: the table lookup, falling back to the
form itself (all table values are non-empty strings, hence truthy). -/
def icuSelector (form : String) : String :=
  match formMapping.lookup form with
  | some s => s
  | none => form

/-- The branch text of one plural form: `convertInterpolation(text)`
followed by the template-literal coercion to a string.
`convertInterpolation` returns non-string values unchanged, and the
template literal then applies JavaScript `ToString` to them. -/
def branchText : JValue → String
  | .str s => convertInterpolation s
  | v => jsToString v

/-- The own property names of `Object.prototype` in a JavaScript realm
(including the Annex B accessors): a property read `o[k]` on a plain
object with no own key `k` returns the inherited member for these names,
and every one of them is truthy (a function, or for `__proto__` the
prototype object itself). -/
def protoNames : List String :=
  ["constructor", "hasOwnProperty", "isPrototypeOf", "propertyIsEnumerable",
   "toLocaleString", "toString", "valueOf", "__defineGetter__", "__defineSetter__",
   "__lookupGetter__", "__lookupSetter__", "__proto__"]

def isDigitChar (c : Char) : Bool := '0' ≤ c && c ≤ '9'

/-- The numeric value of a decimal digit string. -/
def decimalVal (s : String) : Nat :=
  s.data.foldl (fun n c => n * 10 + (c.toNat - 48)) 0

def noLeadingZero : List Char → Bool
  | '0' :: _ :: _ => false
  | _ => true

/-- Whether a string is a JavaScript array index (the canonical decimal
form of an integer below `2^32 - 1`): such own keys are enumerated
first, in ascending numeric order, by `Object.entries`,
`JSON.stringify` and `for...in`. -/
def isArrayIndex (s : String) : Bool :=
  !s.data.isEmpty && s.data.all isDigitChar && noLeadingZero s.data &&
  decide (decimalVal s < 4294967295)

/-- `Object.entries(o)` on a plain object whose own insertion-ordered
property list is `l`: array-index keys come first in ascending numeric
order, then the remaining keys in insertion order. -/
def jsEntries {α : Type} (l : List (String × α)) : List (String × α) :=
  List.insertionSort (fun p q => decimalVal p.1 ≤ decimalVal q.1)
      (l.filter (fun p => isArrayIndex p.1))
    ++ l.filter (fun p => !isArrayIndex p.1)

/-- JavaScript property assignment `o[k] = v` on a plain object parsed
from JSON, as observed through the own-property list: any key other
than `__proto__` creates or updates an own property in place
(`setKey`); assignment to `__proto__` invokes the inherited
`Object.prototype.__proto__` accessor, which changes the object's
prototype (for object values) or does nothing (for primitives), and in
either case creates no own property, so the own-property list -- the
only thing `Object.entries` and `JSON.stringify` observe -- is
unchanged. -/
def jsAssign {α : Type} (l : List (String × α)) (k : String) (v : α) :
    List (String × α) :=
  if k = "__proto__" then l else setKey l k v

/-- `createICUPlural` of `src/converter.js`: enumerate the form
object with `Object.entries` and emit
`` `${icuForm}{${convertedText}}` `` for each accumulated form in
insertion order, join with a single space, and wrap in
`{count, plural, ...}`. -/
def createICUPlural (forms : List (String × JValue)) : String :=
  "\x7bcount, plural, " ++
    joinSep " "
      ((jsEntries forms).map
        (fun p => icuSelector p.1 ++ "\x7b" ++ branchText p.2 ++ "\x7d")) ++
  "\x7d"

/-- Plain-object model of the second loop of `groupPlurals`: convert
each accumulated plural group to its ICU string and assign it at its
base key, in accumulator order
(`result[baseKey] = createICUPlural(forms)`). -/
def icuOfGroupsP : List (String × JValue) →
    List (String × List (String × JValue)) → List (String × JValue)
  | result, [] => result
  | result, g :: rest => icuOfGroupsP (setKey result g.1 (.str (createICUPlural g.2))) rest

/-- Plain-object model of the plural-form accumulation:
`if (!pluralGroups[baseKey]) pluralGroups[baseKey] = {};`
`pluralGroups[baseKey][form] = value;` with truthiness read as own-key
presence — exact when the base is not an inherited `Object.prototype`
member (`pluralInsert_eq_P`). -/
def pluralInsertP (pgs : List (String × List (String × JValue)))
    (bf : String × String) (v : JValue) : List (String × List (String × JValue)) :=
  setKey pgs bf.1 (setKey ((pgs.lookup bf.1).getD []) bf.2 v)

/-- The nested-object test of the source:
`typeof value === 'object' && value !== null && !Array.isArray(value)`. -/
def isNestedObject : JValue → Bool
  | .obj _ => true
  | _ => false

/-- The entry list of a nested object (JS `Object.entries(value)`);
only used under `isNestedObject`. -/
def objEntries : JValue → List (String × JValue)
  | .obj o => o
  | _ => []

theorem sizeOf_objEntries_lt (v : JValue) (h : isNestedObject v = true) :
    sizeOf (objEntries v) < sizeOf v := by
  cases v <;> simp_all [isNestedObject, objEntries] <;> omega

/-- Plain-object model of the entry scan of `groupPlurals`: walk the
entries once; a plural-suffixed key is routed into the per-base-key
accumulator `pgs`, a nested object is recursively converted (the full
`groupPluralsP` pipeline, inlined here for termination), and every other
entry is copied.  Returns the pair `(result, pluralGroups)`. -/
def groupPluralsGoP : List (String × JValue) → List (String × JValue) →
    List (String × List (String × JValue)) →
    List (String × JValue) × List (String × List (String × JValue))
  | [], result, pgs => (result, pgs)
  | (k, v) :: rest, result, pgs =>
    if h : (parsePluralKey k).isSome then
      groupPluralsGoP rest result (pluralInsertP pgs ((parsePluralKey k).get h) v)
    else if h2 : isNestedObject v then
      groupPluralsGoP rest
        (setKey result k
          (.obj (icuOfGroupsP (groupPluralsGoP (objEntries v) [] []).1
            (groupPluralsGoP (objEntries v) [] []).2)))
        pgs
    else groupPluralsGoP rest (setKey result k v) pgs
termination_by l _ _ => sizeOf l
decreasing_by
  all_goals simp
  all_goals try omega
  all_goals (have hso := sizeOf_objEntries_lt v h2; omega)

/-- Plain-object model of `groupPlurals`: scan the level, then compile
each accumulated plural group into the result. -/
def groupPluralsP (translations : List (String × JValue)) : List (String × JValue) :=
  icuOfGroupsP (groupPluralsGoP translations [] []).1 (groupPluralsGoP translations [] []).2

theorem groupPluralsP_def (translations : List (String × JValue)) :
    groupPluralsP translations =
      icuOfGroupsP (groupPluralsGoP translations [] []).1
        (groupPluralsGoP translations [] []).2 := rfl

/-- The nesting depth of a tree level: 0 for a level with no object
values, one more than the deepest nested level otherwise.  Used as the
termination measure of the conversion pass. -/
def jdepthL : List (String × JValue) → Nat
  | [] => 0
  | (_, .obj o) :: rest => max (jdepthL o + 1) (jdepthL rest)
  | _ :: rest => jdepthL rest
termination_by l => sizeOf l
decreasing_by all_goals (simp; try omega)

/-- The nesting depth of a single value. -/
def jdepth : JValue → Nat
  | .obj o => jdepthL o + 1
  | _ => 0

theorem jdepthL_cons (k : String) (v : JValue) (rest : List (String × JValue)) :
    jdepthL ((k, v) :: rest) = max (jdepth v) (jdepthL rest) := by
  cases v <;> simp [jdepthL, jdepth]

theorem jdepthL_append (l1 l2 : List (String × JValue)) :
    jdepthL (l1 ++ l2) = max (jdepthL l1) (jdepthL l2) := by
  induction l1 with
  | nil => simp [jdepthL]
  | cons p rest ih =>
    obtain ⟨k, v⟩ := p
    rw [List.cons_append, jdepthL_cons, jdepthL_cons, ih]
    omega

theorem jdepthL_setKey (l : List (String × JValue)) (k : String) (v : JValue) :
    jdepthL (setKey l k v) ≤ max (jdepthL l) (jdepth v) := by
  induction l with
  | nil =>
    rw [show setKey [] k v = [(k, v)] from rfl, jdepthL_cons]
    simp [jdepthL]
  | cons p rest ih =>
    obtain ⟨k', v'⟩ := p
    by_cases h : k' = k
    · rw [show setKey ((k', v') :: rest) k v = (k, v) :: rest from by
        simp [setKey, h], jdepthL_cons, jdepthL_cons]
      omega
    · rw [show setKey ((k', v') :: rest) k v = (k', v') :: setKey rest k v from by
        simp [setKey, h], jdepthL_cons, jdepthL_cons]
      omega

theorem jdepthL_icuOfGroupsP (result : List (String × JValue))
    (pgs : List (String × List (String × JValue))) :
    jdepthL (icuOfGroupsP result pgs) ≤ jdepthL result := by
  induction pgs generalizing result with
  | nil => simp [icuOfGroupsP]
  | cons g rest ih =>
    have h1 := ih (setKey result g.1 (.str (createICUPlural g.2)))
    have h2 := jdepthL_setKey result g.1 (.str (createICUPlural g.2))
    simp only [jdepth] at h2
    rw [show icuOfGroupsP result (g :: rest) =
        icuOfGroupsP (setKey result g.1 (.str (createICUPlural g.2))) rest from by
      rw [icuOfGroupsP]]
    omega

theorem jdepth_of_nested (v : JValue) (h : isNestedObject v = true) :
    jdepth v = jdepthL (objEntries v) + 1 := by
  cases v <;> simp_all [isNestedObject, objEntries, jdepth]

theorem jdepth_of_not_nested (v : JValue) (h : ¬ isNestedObject v = true) :
    jdepth v = 0 := by
  cases v <;> simp_all [isNestedObject, jdepth]

theorem jdepthL_groupPluralsGoP (l result : List (String × JValue))
    (pgs : List (String × List (String × JValue))) :
    jdepthL (groupPluralsGoP l result pgs).1 ≤ max (jdepthL l) (jdepthL result) := by
  induction l, result, pgs using groupPluralsGoP.induct with
  | case1 result pgs => simp [groupPluralsGoP, jdepthL]
  | case2 k v rest result pgs h ih =>
    rw [groupPluralsGoP.eq_2, dif_pos h]
    rw [jdepthL_cons] at *
    omega
  | case3 k v rest result pgs h h2 ih1 ih2 =>
    rw [groupPluralsGoP.eq_2, dif_neg h, dif_pos h2]
    have hicu := jdepthL_icuOfGroupsP (groupPluralsGoP (objEntries v) [] []).1
      (groupPluralsGoP (objEntries v) [] []).2
    have hset := jdepthL_setKey result k
      (.obj (icuOfGroupsP (groupPluralsGoP (objEntries v) [] []).1
        (groupPluralsGoP (objEntries v) [] []).2))
    have hd := jdepth_of_nested v h2
    simp only [jdepth, jdepthL] at hset ih1
    rw [jdepthL_cons] at *
    omega
  | case4 k v rest result pgs h h2 ih =>
    rw [groupPluralsGoP.eq_2, dif_neg h, dif_neg h2]
    have hz := jdepth_of_not_nested v h2
    have hset := jdepthL_setKey result k v
    rw [jdepthL_cons] at *
    omega

theorem jdepthL_groupPluralsP (l : List (String × JValue)) :
    jdepthL (groupPluralsP l) ≤ jdepthL l := by
  rw [groupPluralsP_def]
  have h1 := jdepthL_icuOfGroupsP (groupPluralsGoP l [] []).1 (groupPluralsGoP l [] []).2
  have h2 := jdepthL_groupPluralsGoP l [] []
  simp only [jdepthL] at h2
  omega

/-- The string test of `convertValueP`: `typeof value === 'string'`. -/
def isStringV : JValue → Bool
  | .str _ => true
  | _ => false

/-- The string content of a string value; only used under `isStringV`. -/
def strVal : JValue → String
  | .str s => s
  | _ => ""

/-- Plain-object model of the result loop of `convertTranslations`
(`for (const [key, value] of Object.entries(grouped)) result[key] =
convertValueP(value);`), with `convertValueP` inlined: a string leaf gets
interpolation rewriting then nesting rewriting, a nested object is
converted by the full `convertTranslationsP` pipeline (group, then
convert values), and anything else is returned unchanged. -/
def convertEntriesGoP : List (String × JValue) → List (String × JValue) →
    List (String × JValue)
  | [], result => result
  | (k, v) :: rest, result =>
    if isStringV v then
      convertEntriesGoP rest
        (setKey result k (.str (convertNesting (convertInterpolation (strVal v)))))
    else if h2 : isNestedObject v then
      convertEntriesGoP rest
        (setKey result k (.obj (convertEntriesGoP (groupPluralsP (objEntries v)) [])))
    else convertEntriesGoP rest (setKey result k v)
termination_by l _ => (jdepthL l, l.length)
decreasing_by
  all_goals rw [jdepthL_cons]
  all_goals first
    | (apply Prod.Lex.left
       have h3 := jdepthL_groupPluralsP (objEntries v)
       have h4 := jdepth_of_nested v h2
       omega)
    | (rcases Nat.lt_or_ge (jdepthL rest) (max (jdepth v) (jdepthL rest)) with hlt | hge
       · exact Prod.Lex.left _ _ hlt
       · have heq : max (jdepth v) (jdepthL rest) = jdepthL rest := by omega
         rw [heq]
         exact Prod.Lex.right _ (by simp))

/-- Plain-object model of `convertTranslations`: group the plural forms,
then convert every value of the grouped level into a fresh result
object. -/
def convertTranslationsP (translations : List (String × JValue)) :
    List (String × JValue) :=
  convertEntriesGoP (groupPluralsP translations) []

/-- Plain-object model of `convertValue`. -/
def convertValueP (v : JValue) : JValue :=
  if isStringV v then .str (convertNesting (convertInterpolation (strVal v)))
  else if isNestedObject v then .obj (convertTranslationsP (objEntries v))
  else v

theorem convertEntriesGoP_cons (k : String) (v : JValue)
    (rest result : List (String × JValue)) :
    convertEntriesGoP ((k, v) :: rest) result =
      convertEntriesGoP rest (setKey result k (convertValueP v)) := by
  rw [convertEntriesGoP.eq_2]
  by_cases h1 : isStringV v
  · rw [if_pos h1]
    simp [convertValueP, h1]
  · rw [if_neg h1]
    by_cases h2 : isNestedObject v
    · rw [dif_pos h2]
      simp [convertValueP, h1, h2, convertTranslationsP]
    · rw [dif_neg h2]
      simp [convertValueP, h1, h2]

/-- C1, amended: `createICUPlural` itself applies only interpolation
rewriting to branch text (no nesting-reference rewriting at synthesis
time), but the subsequent value-conversion pass is applied to the
synthesized plural string, so nesting references inside plural branch
text are rewritten to `[REF:...]` in the final output: for every branch
text `s`, the output value under the base key is the synthesized string
after interpolation and nesting rewriting. -/
theorem icuSelector_zero : icuSelector "zero" = "=0" := rfl
theorem icuSelector_one : icuSelector "one" = "one" := rfl
theorem icuSelector_two : icuSelector "two" = "two" := rfl
theorem icuSelector_few : icuSelector "few" = "few" := rfl
theorem icuSelector_many : icuSelector "many" = "many" := rfl
theorem icuSelector_other : icuSelector "other" = "other" := rfl

theorem branchText_str (s : String) : branchText (.str s) = convertInterpolation s := rfl

theorem takeWhile_append_of_all {p : Char → Bool} {c : List Char}
    (hall : ∀ x ∈ c, p x) {y : Char} (hy : p y = false) (rest : List Char) :
    (c ++ y :: rest).takeWhile p = c ∧ (c ++ y :: rest).dropWhile p = y :: rest := by
  induction c with
  | nil => simp [List.takeWhile, List.dropWhile, hy]
  | cons a c' ih =>
    have ha : p a = true := hall a (by simp)
    have ih' := ih (fun x hx => hall x (by simp [hx]))
    simp only [List.cons_append, List.takeWhile_cons, List.dropWhile_cons, ha,
      if_true]
    exact ⟨by rw [ih'.1], by rw [ih'.2]⟩

theorem interpStep_of_run (c rest : List Char) (hne : c ≠ [])
    (hall : ∀ ch ∈ c, notRBrace ch) :
    interpStep (c ++ '}' :: '}' :: rest) = some (c, rest) := by
  have h := takeWhile_append_of_all (p := notRBrace) (y := '}') hall
    (by simp [notRBrace]) ('}' :: rest)
  unfold interpStep
  rw [h.1, h.2]
  have : c.isEmpty = false := by cases c <;> simp_all
  simp [this]

/-!
Association-list lemmas

Facts about `setKey` on insertion-ordered objects, used by the
structural claims.
-/

/-- The key list of a level. -/
def keysOf {α : Type} (l : List (String × α)) : List String := l.map Prod.fst

theorem keysOf_nil {α : Type} : keysOf ([] : List (String × α)) = [] := rfl

theorem keysOf_cons {α : Type} (k : String) (v : α) (rest : List (String × α)) :
    keysOf ((k, v) :: rest) = k :: keysOf rest := rfl

theorem keysOf_append {α : Type} (l1 l2 : List (String × α)) :
    keysOf (l1 ++ l2) = keysOf l1 ++ keysOf l2 := by
  simp [keysOf]

theorem setKey_of_not_mem {α : Type} {l : List (String × α)} {k : String}
    (h : k ∉ keysOf l) (v : α) : setKey l k v = l ++ [(k, v)] := by
  induction l with
  | nil => rfl
  | cons p rest ih =>
    obtain ⟨k', v'⟩ := p
    have hk : k' ≠ k := by
      intro he
      exact h (by simp [keysOf, he])
    rw [show setKey ((k', v') :: rest) k v = (k', v') :: setKey rest k v from by
      simp [setKey, hk]]
    rw [ih (fun hm => h (by simp [keysOf] at hm ⊢; exact Or.inr hm))]
    simp

theorem keysOf_setKey_of_mem {α : Type} {l : List (String × α)} {k : String}
    (h : k ∈ keysOf l) (v : α) : keysOf (setKey l k v) = keysOf l := by
  induction l with
  | nil => simp [keysOf] at h
  | cons p rest ih =>
    obtain ⟨k', v'⟩ := p
    by_cases hk : k' = k
    · rw [show setKey ((k', v') :: rest) k v = (k, v) :: rest from by
        simp [setKey, hk]]
      simp [keysOf, hk]
    · have hm : k ∈ keysOf rest := by
        simp [keysOf] at h ⊢
        rcases h with h | h
        · exact absurd h.symm hk
        · exact h
      rw [show setKey ((k', v') :: rest) k v = (k', v') :: setKey rest k v from by
        simp [setKey, hk]]
      rw [keysOf_cons, keysOf_cons, ih hm]

theorem keysOf_setKey_of_not_mem {α : Type} {l : List (String × α)} {k : String}
    (h : k ∉ keysOf l) (v : α) : keysOf (setKey l k v) = keysOf l ++ [k] := by
  rw [setKey_of_not_mem h v, keysOf_append]
  rfl

theorem keysOf_setKey_sub {α : Type} (l : List (String × α)) (k : String) (v : α) :
    ∀ k', k' ∈ keysOf (setKey l k v) → k' ∈ keysOf l ∨ k' = k := by
  intro k' h
  by_cases hm : k ∈ keysOf l
  · rw [keysOf_setKey_of_mem hm] at h
    exact Or.inl h
  · rw [keysOf_setKey_of_not_mem hm] at h
    simp at h
    rcases h with h | h
    · exact Or.inl h
    · exact Or.inr h

theorem nodup_keysOf_setKey {α : Type} {l : List (String × α)}
    (h : (keysOf l).Nodup) (k : String) (v : α) :
    (keysOf (setKey l k v)).Nodup := by
  by_cases hm : k ∈ keysOf l
  · rw [keysOf_setKey_of_mem hm]
    exact h
  · rw [keysOf_setKey_of_not_mem hm]
    simp [List.nodup_append, h, hm]

theorem lookup_setKey_self {α : Type} (l : List (String × α)) (k : String) (v : α) :
    (setKey l k v).lookup k = some v := by
  induction l with
  | nil => simp [setKey, List.lookup]
  | cons p rest ih =>
    obtain ⟨k', v'⟩ := p
    by_cases hk : k' = k
    · rw [show setKey ((k', v') :: rest) k v = (k, v) :: rest from by
        simp [setKey, hk]]
      simp [List.lookup]
    · rw [show setKey ((k', v') :: rest) k v = (k', v') :: setKey rest k v from by
        simp [setKey, hk]]
      simp [List.lookup, show (k == k') = false from by
        simp [Ne.symm hk], ih]

theorem lookup_setKey_of_ne {α : Type} (l : List (String × α)) {k k' : String}
    (h : k' ≠ k) (v : α) : (setKey l k v).lookup k' = l.lookup k' := by
  induction l with
  | nil => simp [setKey, List.lookup, show (k' == k) = false from by simp [h]]
  | cons p rest ih =>
    obtain ⟨k'', v''⟩ := p
    by_cases hk : k'' = k
    · rw [show setKey ((k'', v'') :: rest) k v = (k, v) :: rest from by
        simp [setKey, hk]]
      simp [List.lookup, show (k' == k) = false from by simp [h],
        show (k' == k'') = false from by simp [hk ▸ h]]
    · rw [show setKey ((k'', v'') :: rest) k v = (k'', v'') :: setKey rest k v from by
        simp [setKey, hk]]
      by_cases he : k' = k''
      · simp [List.lookup, he]
      · simp [List.lookup, show (k' == k'') = false from by simp [he], ih]

theorem mem_setKey_of_ne {α : Type} {l : List (String × α)} {k' : String} {v' : α}
    (h : (k', v') ∈ l) {k : String} (hne : k' ≠ k) (v : α) :
    (k', v') ∈ setKey l k v := by
  induction l with
  | nil => simp at h
  | cons p rest ih =>
    obtain ⟨k'', v''⟩ := p
    by_cases hk : k'' = k
    · rw [show setKey ((k'', v'') :: rest) k v = (k, v) :: rest from by
        simp [setKey, hk]]
      rcases List.mem_cons.mp h with he | hm
      · cases he
        exact absurd hk hne
      · simp [hm]
    · rw [show setKey ((k'', v'') :: rest) k v = (k'', v'') :: setKey rest k v from by
        simp [setKey, hk]]
      rcases List.mem_cons.mp h with he | hm
      · simp [he]
      · simp [ih hm]

theorem sizeOf_objEntries_le (v : JValue) : sizeOf (objEntries v) ≤ sizeOf v := by
  cases v <;> simp [objEntries] <;> omega

theorem any_key_eq_mem_keysOf {α : Type} (l : List (String × α)) (k : String) :
    l.any (fun p => p.1 = k) = true ↔ k ∈ keysOf l := by
  simp [keysOf, List.any_eq_true, List.mem_map]

/-- Well-formedness of a tree level: keys are unique at this level and
every nested object level is itself well-formed (the spec §3 invariant
"keys unique within the mapping"). -/
def wfL : List (String × JValue) → Bool
  | [] => true
  | (k, v) :: rest =>
    !(rest.any (fun p => p.1 = k)) &&
    (if isNestedObject v then wfL (objEntries v) else true) &&
    wfL rest
termination_by l => sizeOf l
decreasing_by
  all_goals simp
  all_goals (have hso := sizeOf_objEntries_le v; omega)

theorem wfL_nil : wfL [] = true := by rw [wfL]

/-- Well-formedness of a single value. -/
def wfV (v : JValue) : Bool :=
  if isNestedObject v then wfL (objEntries v) else true

theorem wfL_cons (k : String) (v : JValue) (rest : List (String × JValue)) :
    wfL ((k, v) :: rest) =
      (!(rest.any (fun p => p.1 = k)) && wfV v && wfL rest) := by
  rw [wfL, wfV]

theorem wfV_of_not_nested {v : JValue} (h : ¬ isNestedObject v = true) :
    wfV v = true := by
  simp [wfV, h]

theorem wfL_setKey {res : List (String × JValue)} (hres : wfL res = true)
    {v : JValue} (hv : wfV v = true) (k : String) :
    wfL (setKey res k v) = true := by
  induction res with
  | nil => simp [setKey, wfL_cons, wfL, hv]
  | cons p rest ih =>
    obtain ⟨k'', v''⟩ := p
    rw [wfL_cons] at hres
    simp only [Bool.and_eq_true, Bool.not_eq_eq_eq_not, Bool.not_true] at hres
    obtain ⟨⟨hno, hv''⟩, hrest⟩ := hres
    by_cases hk : k'' = k
    · rw [show setKey ((k'', v'') :: rest) k v = (k, v) :: rest from by
        simp [setKey, hk]]
      rw [wfL_cons]
      simp [hv, hrest, hk ▸ hno]
    · rw [show setKey ((k'', v'') :: rest) k v = (k'', v'') :: setKey rest k v from by
        simp [setKey, hk]]
      rw [wfL_cons]
      have hnotmem : k'' ∉ keysOf (setKey rest k v) := by
        intro hm
        rcases keysOf_setKey_sub rest k v k'' hm with hin | he
        · rw [← any_key_eq_mem_keysOf] at hin
          rw [hin] at hno
          simp at hno
        · exact hk he
      have hany : (setKey rest k v).any (fun p => p.1 = k'') = false := by
        by_contra hc
        simp only [Bool.not_eq_false] at hc
        exact hnotmem ((any_key_eq_mem_keysOf _ _).mp hc)
      simp [hany, hv'', ih hrest]

theorem wfL_convertEntriesGoP (d : Nat) :
    ∀ (l res : List (String × JValue)), jdepthL l ≤ d → wfL res = true →
      wfL (convertEntriesGoP l res) = true := by
  induction d using Nat.strong_induction_on with
  | _ d ihd =>
    intro l
    induction l with
    | nil =>
      intro res _ hres
      simpa [convertEntriesGoP] using hres
    | cons p rest ihl =>
      obtain ⟨k, v⟩ := p
      intro res hd hres
      rw [convertEntriesGoP_cons]
      have hdrest : jdepthL rest ≤ d := by
        rw [jdepthL_cons] at hd
        omega
      apply ihl (setKey res k (convertValueP v)) hdrest
      apply wfL_setKey hres _ k
      by_cases h1 : isStringV v
      · obtain ⟨s, rfl⟩ : ∃ s, v = JValue.str s := by
          cases v with
          | str s => exact ⟨s, rfl⟩
          | _ => simp [isStringV] at h1
        simp [convertValueP, isStringV, strVal, wfV, isNestedObject]
      · by_cases h2 : isNestedObject v
        · obtain ⟨o, rfl⟩ : ∃ o, v = JValue.obj o := by
            cases v with
            | obj o => exact ⟨o, rfl⟩
            | _ => simp [isNestedObject] at h2
          have hdepth : jdepthL (groupPluralsP o) < d := by
            have hb := jdepthL_groupPluralsP o
            have hv := jdepth_of_nested (JValue.obj o) h2
            rw [jdepthL_cons] at hd
            simp only [objEntries] at hv
            omega
          have hrec := ihd _ hdepth (groupPluralsP o) [] (le_refl _) wfL_nil
          simp [convertValueP, isStringV, isNestedObject, objEntries, wfV,
            convertTranslationsP, hrec]
        · simp [convertValueP, h1, h2, wfV_of_not_nested h2]

/-- The keys of a level that are not plural-suffixed, in source order. -/
def nonPluralKeys (l : List (String × JValue)) : List String :=
  (l.filter (fun p => (parsePluralKey p.1).isNone)).map Prod.fst

/-- The plural-family base keys of a level in order of first appearance,
starting from an accumulator (mirroring the iteration order of the
`pluralGroups` object). -/
def pluralBasesAcc : List (String × JValue) → List String → List String
  | [], acc => acc
  | (k, _) :: rest, acc =>
    if h : (parsePluralKey k).isSome then
      pluralBasesAcc rest
        (if ((parsePluralKey k).get h).1 ∈ acc then acc
         else acc ++ [((parsePluralKey k).get h).1])
    else pluralBasesAcc rest acc

/-- The plural-family base keys of a level in order of first appearance. -/
def pluralBases (l : List (String × JValue)) : List String := pluralBasesAcc l []

theorem nonPluralKeys_cons (k : String) (v : JValue) (rest : List (String × JValue)) :
    nonPluralKeys ((k, v) :: rest) =
      if (parsePluralKey k).isNone then k :: nonPluralKeys rest
      else nonPluralKeys rest := by
  by_cases hp : (parsePluralKey k).isNone <;>
    simp [nonPluralKeys, List.filter_cons, hp]

theorem nonPluralKeys_sub {l : List (String × JValue)} {k' : String}
    (h : k' ∈ nonPluralKeys l) : k' ∈ keysOf l := by
  simp only [nonPluralKeys, keysOf, List.mem_map, List.mem_filter] at h ⊢
  obtain ⟨p, ⟨hp, _⟩, he⟩ := h
  exact ⟨p, hp, he⟩

theorem keysOf_pluralInsertP (pgs : List (String × List (String × JValue)))
    (bf : String × String) (v : JValue) :
    keysOf (pluralInsertP pgs bf v) =
      if bf.1 ∈ keysOf pgs then keysOf pgs else keysOf pgs ++ [bf.1] := by
  unfold pluralInsertP
  by_cases hm : bf.1 ∈ keysOf pgs
  · rw [keysOf_setKey_of_mem hm, if_pos hm]
  · rw [keysOf_setKey_of_not_mem hm, if_neg hm]

theorem keysOf_groupPluralsGoP_fst (l res : List (String × JValue))
    (pgs : List (String × List (String × JValue))) :
    (keysOf l).Nodup → (∀ k ∈ nonPluralKeys l, k ∉ keysOf res) →
    keysOf (groupPluralsGoP l res pgs).1 = keysOf res ++ nonPluralKeys l := by
  induction l, res, pgs using groupPluralsGoP.induct with
  | case1 res pgs =>
    intro _ _
    simp [groupPluralsGoP, nonPluralKeys]
  | case2 k v rest res pgs h ih =>
    intro hnd hdisj
    rw [groupPluralsGoP.eq_2, dif_pos h]
    have hno : ¬ (parsePluralKey k).isNone = true := by
      simp [Option.isNone_iff_eq_none]
      exact Option.isSome_iff_exists.mp h |>.elim (fun a ha => by simp [ha])
    rw [nonPluralKeys_cons, if_neg hno] at hdisj ⊢
    exact ih (by rw [keysOf_cons] at hnd; exact hnd.of_cons) hdisj
  | case3 k v rest res pgs h h2 ih1 ih2 =>
    intro hnd hdisj
    rw [groupPluralsGoP.eq_2, dif_neg h, dif_pos h2]
    have hiso : (parsePluralKey k).isNone = true := by
      simp [Option.isNone_iff_eq_none]
      cases hp : parsePluralKey k with
      | none => rfl
      | some x => rw [hp] at h; simp at h
    rw [nonPluralKeys_cons, if_pos hiso] at hdisj ⊢
    have hknotres : k ∉ keysOf res := hdisj k (by simp)
    rw [ih2 ?_ ?_]
    · rw [keysOf_setKey_of_not_mem hknotres]
      simp
    · rw [keysOf_cons] at hnd
      exact hnd.of_cons
    · intro k' hk'
      rw [keysOf_setKey_of_not_mem hknotres]
      simp only [List.mem_append, List.mem_singleton]
      rintro (hin | he)
      · exact hdisj k' (by simp [hk']) hin
      · rw [keysOf_cons] at hnd
        rw [he] at hk'
        exact (List.nodup_cons.mp hnd).1 (nonPluralKeys_sub hk')
  | case4 k v rest res pgs h h2 ih =>
    intro hnd hdisj
    rw [groupPluralsGoP.eq_2, dif_neg h, dif_neg h2]
    have hiso : (parsePluralKey k).isNone = true := by
      cases hp : parsePluralKey k with
      | none => rfl
      | some x => rw [hp] at h; simp at h
    rw [nonPluralKeys_cons, if_pos hiso] at hdisj ⊢
    have hknotres : k ∉ keysOf res := hdisj k (by simp)
    rw [ih ?_ ?_]
    · rw [keysOf_setKey_of_not_mem hknotres]
      simp
    · rw [keysOf_cons] at hnd
      exact hnd.of_cons
    · intro k' hk'
      rw [keysOf_setKey_of_not_mem hknotres]
      simp only [List.mem_append, List.mem_singleton]
      rintro (hin | he)
      · exact hdisj k' (by simp [hk']) hin
      · rw [keysOf_cons] at hnd
        rw [he] at hk'
        exact (List.nodup_cons.mp hnd).1 (nonPluralKeys_sub hk')

theorem keysOf_groupPluralsGoP_snd (l res : List (String × JValue))
    (pgs : List (String × List (String × JValue))) :
    keysOf (groupPluralsGoP l res pgs).2 = pluralBasesAcc l (keysOf pgs) := by
  induction l, res, pgs using groupPluralsGoP.induct with
  | case1 res pgs => simp [groupPluralsGoP, pluralBasesAcc]
  | case2 k v rest res pgs h ih =>
    rw [groupPluralsGoP.eq_2, dif_pos h, pluralBasesAcc, dif_pos h, ih,
      keysOf_pluralInsertP]
  | case3 k v rest res pgs h h2 ih1 ih2 =>
    rw [groupPluralsGoP.eq_2, dif_neg h, dif_pos h2, pluralBasesAcc, dif_neg h, ih2]
  | case4 k v rest res pgs h h2 ih =>
    rw [groupPluralsGoP.eq_2, dif_neg h, dif_neg h2, pluralBasesAcc, dif_neg h, ih]

theorem pluralBasesAcc_nodup (l : List (String × JValue)) (acc : List String)
    (hacc : acc.Nodup) : (pluralBasesAcc l acc).Nodup := by
  induction l generalizing acc with
  | nil => simpa [pluralBasesAcc]
  | cons p rest ih =>
    obtain ⟨k, v⟩ := p
    rw [pluralBasesAcc]
    by_cases h : (parsePluralKey k).isSome
    · rw [dif_pos h]
      apply ih
      split
      · exact hacc
      · rename_i hnm
        simp [List.nodup_append, hacc, hnm]
    · rw [dif_neg h]
      exact ih acc hacc

theorem keysOf_icuOfGroupsP (res : List (String × JValue))
    (pgs : List (String × List (String × JValue)))
    (hdisj : ∀ b ∈ keysOf pgs, b ∉ keysOf res) (hnd : (keysOf pgs).Nodup) :
    keysOf (icuOfGroupsP res pgs) = keysOf res ++ keysOf pgs := by
  induction pgs generalizing res with
  | nil => simp [icuOfGroupsP, keysOf]
  | cons g rest ih =>
    obtain ⟨b, forms⟩ := g
    rw [show icuOfGroupsP res ((b, forms) :: rest) =
        icuOfGroupsP (setKey res b (.str (createICUPlural forms))) rest from by
      rw [icuOfGroupsP]]
    have hbnot : b ∉ keysOf res := hdisj b (by simp [keysOf])
    rw [ih (setKey res b (.str (createICUPlural forms))) ?_ ?_]
    · rw [keysOf_setKey_of_not_mem hbnot]
      simp [keysOf]
    · intro b' hb'
      rw [keysOf_setKey_of_not_mem hbnot]
      simp only [List.mem_append, List.mem_singleton]
      rintro (hin | he)
      · exact hdisj b' (by rw [keysOf_cons]; exact List.mem_cons_of_mem _ hb') hin
      · rw [keysOf_cons] at hnd
        rw [he] at hb'
        exact (List.nodup_cons.mp hnd).1 hb'
    · rw [keysOf_cons] at hnd
      exact hnd.of_cons

theorem keysOf_convertEntriesGoP (l res : List (String × JValue))
    (hnd : (keysOf l).Nodup) (hdisj : ∀ k ∈ keysOf l, k ∉ keysOf res) :
    keysOf (convertEntriesGoP l res) = keysOf res ++ keysOf l := by
  induction l generalizing res with
  | nil => simp [convertEntriesGoP, keysOf]
  | cons p rest ih =>
    obtain ⟨k, v⟩ := p
    rw [convertEntriesGoP_cons]
    have hknot : k ∉ keysOf res := hdisj k (by simp [keysOf])
    rw [keysOf_cons] at hnd
    rw [ih (setKey res k (convertValueP v)) hnd.of_cons ?_]
    · rw [keysOf_setKey_of_not_mem hknot]
      simp [keysOf]
    · intro k' hk'
      rw [keysOf_setKey_of_not_mem hknot]
      simp only [List.mem_append, List.mem_singleton]
      rintro (hin | he)
      · exact hdisj k' (by rw [keysOf_cons]; exact List.mem_cons_of_mem _ hk') hin
      · rw [he] at hk'
        exact (List.nodup_cons.mp hnd).1 hk'

theorem mem_keysOf_of_mem {α : Type} {l : List (String × α)} {k : String} {v : α}
    (h : (k, v) ∈ l) : k ∈ keysOf l :=
  List.mem_map_of_mem Prod.fst h

theorem mem_setKey_self {α : Type} (l : List (String × α)) (k : String) (v : α) :
    (k, v) ∈ setKey l k v := by
  induction l with
  | nil => simp [setKey]
  | cons p rest ih =>
    obtain ⟨k', v'⟩ := p
    by_cases hk : k' = k
    · rw [show setKey ((k', v') :: rest) k v = (k, v) :: rest from by
        simp [setKey, hk]]
      simp
    · rw [show setKey ((k', v') :: rest) k v = (k', v') :: setKey rest k v from by
        simp [setKey, hk]]
      simp [ih]

theorem mem_groupPluralsGoP_res (l res : List (String × JValue))
    (pgs : List (String × List (String × JValue))) {k : String} {v : JValue}
    (hmem : (k, v) ∈ res) (hnot : k ∉ keysOf l) :
    (k, v) ∈ (groupPluralsGoP l res pgs).1 := by
  induction l, res, pgs using groupPluralsGoP.induct with
  | case1 res pgs => simpa [groupPluralsGoP]
  | case2 k' v' rest res pgs h ih =>
    rw [groupPluralsGoP.eq_2, dif_pos h]
    exact ih hmem (fun hm => hnot (by rw [keysOf_cons]; exact List.mem_cons_of_mem _ hm))
  | case3 k' v' rest res pgs h h2 ih1 ih2 =>
    rw [groupPluralsGoP.eq_2, dif_neg h, dif_pos h2]
    have hne : k ≠ k' := fun he => hnot (by rw [keysOf_cons, he]; simp)
    exact ih2 (mem_setKey_of_ne hmem hne _)
      (fun hm => hnot (by rw [keysOf_cons]; exact List.mem_cons_of_mem _ hm))
  | case4 k' v' rest res pgs h h2 ih =>
    rw [groupPluralsGoP.eq_2, dif_neg h, dif_neg h2]
    have hne : k ≠ k' := fun he => hnot (by rw [keysOf_cons, he]; simp)
    exact ih (mem_setKey_of_ne hmem hne _)
      (fun hm => hnot (by rw [keysOf_cons]; exact List.mem_cons_of_mem _ hm))

theorem mem_groupPluralsGoP_fst (l res : List (String × JValue))
    (pgs : List (String × List (String × JValue))) {k : String} {v : JValue}
    (hmem : (k, v) ∈ l) (hparse : parsePluralKey k = none)
    (hnotobj : ¬ isNestedObject v = true)
    (hnd : (keysOf l).Nodup) (hres : k ∉ keysOf res) :
    (k, v) ∈ (groupPluralsGoP l res pgs).1 := by
  induction l, res, pgs using groupPluralsGoP.induct with
  | case1 res pgs => simp at hmem
  | case2 k' v' rest res pgs h ih =>
    rcases List.mem_cons.mp hmem with he | hm
    · obtain ⟨he1, he2⟩ := Prod.mk.injEq .. ▸ he
      rw [he1] at hparse
      rw [hparse] at h
      simp at h
    · rw [groupPluralsGoP.eq_2, dif_pos h]
      rw [keysOf_cons] at hnd
      exact ih hm hnd.of_cons hres
  | case3 k' v' rest res pgs h h2 ih1 ih2 =>
    rcases List.mem_cons.mp hmem with he | hm
    · obtain ⟨he1, he2⟩ := Prod.mk.injEq .. ▸ he
      rw [he2] at hnotobj
      exact absurd h2 hnotobj
    · rw [groupPluralsGoP.eq_2, dif_neg h, dif_pos h2]
      rw [keysOf_cons] at hnd
      have hkmem : k ∈ keysOf rest := mem_keysOf_of_mem hm
      have hne : k ≠ k' := fun he => (List.nodup_cons.mp hnd).1 (he ▸ hkmem)
      apply ih2 hm hnd.of_cons
      intro hc
      rcases keysOf_setKey_sub res k' _ k hc with hin | he
      · exact hres hin
      · exact hne he
  | case4 k' v' rest res pgs h h2 ih =>
    rcases List.mem_cons.mp hmem with he | hm
    · obtain ⟨he1, he2⟩ := Prod.mk.injEq .. ▸ he
      rw [groupPluralsGoP.eq_2, dif_neg h, dif_neg h2]
      rw [keysOf_cons] at hnd
      apply mem_groupPluralsGoP_res
      · rw [← he1, ← he2]
        exact mem_setKey_self res k v
      · rw [he1]
        exact (List.nodup_cons.mp hnd).1
    · rw [groupPluralsGoP.eq_2, dif_neg h, dif_neg h2]
      rw [keysOf_cons] at hnd
      have hkmem : k ∈ keysOf rest := mem_keysOf_of_mem hm
      have hne : k ≠ k' := fun he => (List.nodup_cons.mp hnd).1 (he ▸ hkmem)
      apply ih hm hnd.of_cons
      intro hc
      rcases keysOf_setKey_sub res k' _ k hc with hin | he
      · exact hres hin
      · exact hne he

theorem mem_icuOfGroupsP (res : List (String × JValue))
    (pgs : List (String × List (String × JValue))) {k : String} {v : JValue}
    (hmem : (k, v) ∈ res) (hdisj : ∀ b ∈ keysOf pgs, b ≠ k) :
    (k, v) ∈ icuOfGroupsP res pgs := by
  induction pgs generalizing res with
  | nil => simpa [icuOfGroupsP]
  | cons g rest ih =>
    obtain ⟨b, forms⟩ := g
    rw [show icuOfGroupsP res ((b, forms) :: rest) =
        icuOfGroupsP (setKey res b (.str (createICUPlural forms))) rest from by
      rw [icuOfGroupsP]]
    have hne : k ≠ b := fun he => hdisj b (by simp [keysOf]) he.symm
    exact ih _ (mem_setKey_of_ne hmem hne _)
      (fun b' hb' => hdisj b' (by rw [keysOf_cons]; exact List.mem_cons_of_mem _ hb'))

theorem mem_convertEntriesGoP_res (l res : List (String × JValue))
    {k : String} {v : JValue}
    (hmem : (k, v) ∈ res) (hnot : k ∉ keysOf l) :
    (k, v) ∈ convertEntriesGoP l res := by
  induction l generalizing res with
  | nil => simpa [convertEntriesGoP]
  | cons p rest ih =>
    obtain ⟨k', v'⟩ := p
    rw [convertEntriesGoP_cons]
    have hne : k ≠ k' := fun he => hnot (by rw [keysOf_cons, he]; simp)
    exact ih _ (mem_setKey_of_ne hmem hne _)
      (fun hm => hnot (by rw [keysOf_cons]; exact List.mem_cons_of_mem _ hm))

theorem mem_convertEntriesGoP (l res : List (String × JValue))
    {k : String} {v : JValue}
    (hmem : (k, v) ∈ l) (hstr : ¬ isStringV v = true)
    (hobj : ¬ isNestedObject v = true)
    (hnd : (keysOf l).Nodup) (hres : k ∉ keysOf res) :
    (k, v) ∈ convertEntriesGoP l res := by
  induction l generalizing res with
  | nil => simp at hmem
  | cons p rest ih =>
    obtain ⟨k', v'⟩ := p
    rw [convertEntriesGoP_cons, keysOf_cons] at *
    rcases List.mem_cons.mp hmem with he | hm
    · obtain ⟨he1, he2⟩ := Prod.mk.injEq .. ▸ he
      apply mem_convertEntriesGoP_res
      · have hcv : convertValueP v' = v' := by
          rw [← he2] at *
          simp [convertValueP, hstr, hobj]
        rw [hcv, ← he1, ← he2]
        exact mem_setKey_self res k v
      · rw [he1]
        exact (List.nodup_cons.mp hnd).1
    · have hkmem : k ∈ keysOf rest := mem_keysOf_of_mem hm
      have hne : k ≠ k' := fun he => (List.nodup_cons.mp hnd).1 (he ▸ hkmem)
      apply ih _ hm hnd.of_cons
      intro hc
      rcases keysOf_setKey_sub res k' _ k hc with hin | he
      · exact hres hin
      · exact hne he

theorem nodup_keysOf_groupPluralsGoP (l res : List (String × JValue))
    (pgs : List (String × List (String × JValue)))
    (hres : (keysOf res).Nodup) : (keysOf (groupPluralsGoP l res pgs).1).Nodup := by
  induction l, res, pgs using groupPluralsGoP.induct with
  | case1 res pgs => simpa [groupPluralsGoP]
  | case2 k v rest res pgs h ih =>
    rw [groupPluralsGoP.eq_2, dif_pos h]
    exact ih hres
  | case3 k v rest res pgs h h2 ih1 ih2 =>
    rw [groupPluralsGoP.eq_2, dif_neg h, dif_pos h2]
    exact ih2 (nodup_keysOf_setKey hres k _)
  | case4 k v rest res pgs h h2 ih =>
    rw [groupPluralsGoP.eq_2, dif_neg h, dif_neg h2]
    exact ih (nodup_keysOf_setKey hres k _)

theorem nodup_keysOf_icuOfGroupsP (res : List (String × JValue))
    (pgs : List (String × List (String × JValue)))
    (hres : (keysOf res).Nodup) : (keysOf (icuOfGroupsP res pgs)).Nodup := by
  induction pgs generalizing res with
  | nil => simpa [icuOfGroupsP]
  | cons g rest ih =>
    rw [show icuOfGroupsP res (g :: rest) =
        icuOfGroupsP (setKey res g.1 (.str (createICUPlural g.2))) rest from by
      rw [icuOfGroupsP]]
    exact ih _ (nodup_keysOf_setKey hres g.1 _)

theorem nodup_keysOf_groupPluralsP (l : List (String × JValue)) :
    (keysOf (groupPluralsP l)).Nodup := by
  rw [groupPluralsP_def]
  exact nodup_keysOf_icuOfGroupsP _ _
    (nodup_keysOf_groupPluralsGoP l [] [] (by simp [keysOf]))

theorem parsePluralKey_recompose {k b f : String}
    (h : parsePluralKey k = some (b, f)) :
    k = b ++ "_" ++ f ∧ f ∈ pluralForms ∧ b.data.all dotChar = true ∧ b.data ≠ [] := by
  unfold parsePluralKey at h
  obtain ⟨bn, hbn, hf⟩ := List.exists_of_findSome?_eq_some h
  by_cases hc : (1 ≤ bn && (k.data.take bn).all dotChar && k.data[bn]? == some '_'
      && pluralForms.contains (String.mk (k.data.drop (bn + 1)))) = true
  · rw [if_pos hc] at hf
    simp only [Bool.and_eq_true, beq_iff_eq, decide_eq_true_eq] at hc
    obtain ⟨⟨⟨h1, h2⟩, h3⟩, h4⟩ := hc
    simp only [Option.some.injEq, Prod.mk.injEq] at hf
    obtain ⟨hb, hf2⟩ := hf
    have hlt : bn < k.data.length := by
      by_contra hge
      rw [List.getElem?_eq_none (by omega)] at h3
      cases h3
    have hchar : k.data[bn] = '_' := by
      rw [List.getElem?_eq_getElem hlt] at h3
      simpa using h3
    have hdrop : k.data.drop bn = '_' :: k.data.drop (bn + 1) := by
      rw [List.drop_eq_getElem_cons hlt, hchar]
    refine ⟨?_, ?_, ?_, ?_⟩
    · apply String.ext
      rw [← hb, ← hf2]
      show k.data = (String.mk (k.data.take bn) ++ "_" ++
        String.mk (k.data.drop (bn + 1))).data
      simp only [String.data_append, List.append_assoc, List.singleton_append]
      rw [← hdrop, List.take_append_drop]
    · rw [← hf2]
      exact List.mem_of_elem_eq_true h4
    · rw [← hb]
      simpa using h2
    · rw [← hb]
      show k.data.take bn ≠ []
      have hl : (k.data.take bn).length = bn := by
        rw [List.length_take]
        omega
      intro he
      rw [he] at hl
      simp at hl
      omega
  · rw [if_neg hc] at hf
    cases hf

theorem parsePluralKey_concat_isSome {K f : String}
    (hK : K.data.all dotChar = true) (hKne : K.data ≠ []) (hf : f ∈ pluralForms) :
    (parsePluralKey (K ++ "_" ++ f)).isSome = true := by
  rw [Option.isSome_iff_ne_none]
  intro hnone
  unfold parsePluralKey at hnone
  rw [List.findSome?_eq_none_iff] at hnone
  have hdata : (K ++ "_" ++ f).data = K.data ++ '_' :: f.data := by
    simp [String.data_append]
  have hlen : (K ++ "_" ++ f).length = K.data.length + 1 + f.data.length := by
    show (K ++ "_" ++ f).data.length = _
    rw [hdata]
    simp
    omega
  have hb : K.data.length ∈ (List.range (K ++ "_" ++ f).length).reverse := by
    rw [List.mem_reverse, List.mem_range, hlen]
    omega
  have hcond := hnone _ hb
  have htake : (K ++ "_" ++ f).data.take K.data.length = K.data := by
    rw [hdata, List.take_left]
  have hget : (K ++ "_" ++ f).data[K.data.length]? = some '_' := by
    rw [hdata]
    rw [List.getElem?_append_right (le_refl _)]
    simp
  have hdrop : (K ++ "_" ++ f).data.drop (K.data.length + 1) = f.data := by
    rw [hdata, show K.data.length + 1 = (K.data ++ ['_']).length by simp]
    rw [show K.data ++ '_' :: f.data = (K.data ++ ['_']) ++ f.data by simp]
    rw [List.drop_left]
  have h1 : 1 ≤ K.data.length := by
    cases he : K.data with
    | nil => exact absurd he hKne
    | cons a l => simp [he]
  have h4 : pluralForms.contains (String.mk f.data) = true := by
    apply List.elem_eq_true_of_mem
    simpa using hf
  rw [htake, hget, hdrop] at hcond
  simp [h1, hK, h4] at hcond
  exact hcond h1 (by simpa using hf)

/-- The plural family of base `K` visible at one level: the
`(form, value)` pairs of the entries whose key parses to base `K`, in
source order. -/
def familyOf (K : String) (l : List (String × JValue)) : List (String × JValue) :=
  l.filterMap (fun p =>
    match parsePluralKey p.1 with
    | some (b, f) => if b = K then some (f, p.2) else none
    | none => none)

/-- Replay of the per-form accumulation of a family into a group
object. -/
def famFold (g : List (String × JValue)) (fam : List (String × JValue)) :
    List (String × JValue) :=
  fam.foldl (fun g p => setKey g p.1 p.2) g

theorem familyOf_nil (K : String) : familyOf K [] = [] := rfl

theorem familyOf_cons_of_none {k : String} (K : String) (v : JValue)
    (rest : List (String × JValue)) (h : parsePluralKey k = none) :
    familyOf K ((k, v) :: rest) = familyOf K rest := by
  simp [familyOf, List.filterMap_cons, h]

theorem familyOf_cons_of_base {k K f : String} (v : JValue)
    (rest : List (String × JValue)) (h : parsePluralKey k = some (K, f)) :
    familyOf K ((k, v) :: rest) = (f, v) :: familyOf K rest := by
  simp [familyOf, List.filterMap_cons, h]

theorem familyOf_cons_of_ne {k K b f : String} (v : JValue)
    (rest : List (String × JValue)) (h : parsePluralKey k = some (b, f))
    (hne : b ≠ K) :
    familyOf K ((k, v) :: rest) = familyOf K rest := by
  simp [familyOf, List.filterMap_cons, h, hne]

theorem mem_familyOf {K f : String} {v : JValue} {l : List (String × JValue)}
    (h : (f, v) ∈ familyOf K l) :
    ∃ k, (k, v) ∈ l ∧ parsePluralKey k = some (K, f) := by
  unfold familyOf at h
  rw [List.mem_filterMap] at h
  obtain ⟨⟨k, v'⟩, hmem, heq⟩ := h
  cases hp : parsePluralKey k with
  | none => rw [hp] at heq; cases heq
  | some bf =>
    obtain ⟨b, f'⟩ := bf
    rw [hp] at heq
    dsimp only at heq
    by_cases hb : b = K
    · rw [if_pos hb] at heq
      simp only [Option.some.injEq, Prod.mk.injEq] at heq
      obtain ⟨hf, hv⟩ := heq
      exact ⟨k, by rw [hv] at hmem; exact hmem, by rw [hp, hb, hf]⟩
    · rw [if_neg hb] at heq
      cases heq

theorem nodup_keysOf_familyOf {K : String} {l : List (String × JValue)}
    (hnd : (keysOf l).Nodup) : (keysOf (familyOf K l)).Nodup := by
  induction l with
  | nil => simp [familyOf_nil, keysOf]
  | cons p rest ih =>
    obtain ⟨k, v⟩ := p
    rw [keysOf_cons] at hnd
    cases hp : parsePluralKey k with
    | none => rw [familyOf_cons_of_none K v rest hp]; exact ih hnd.of_cons
    | some bf =>
      obtain ⟨b, f⟩ := bf
      by_cases hb : b = K
      · rw [hb] at hp
        rw [familyOf_cons_of_base v rest hp, keysOf_cons, List.nodup_cons]
        refine ⟨?_, ih hnd.of_cons⟩
        intro hfm
        obtain ⟨⟨f', v'⟩, hmem, hfe⟩ := List.mem_map.mp hfm
        have hff : f' = f := hfe
        subst hff
        obtain ⟨k', hk'mem, hk'p⟩ := mem_familyOf hmem
        have he1 := (parsePluralKey_recompose hp).1
        have he2 := (parsePluralKey_recompose hk'p).1
        have hkk : k' = k := by rw [he1, he2]
        exact (List.nodup_cons.mp hnd).1 (hkk ▸ mem_keysOf_of_mem hk'mem)
      · rw [familyOf_cons_of_ne v rest hp hb]
        exact ih hnd.of_cons

theorem famFold_append (g fam : List (String × JValue))
    (hdisj : ∀ f ∈ keysOf fam, f ∉ keysOf g) (hnd : (keysOf fam).Nodup) :
    famFold g fam = g ++ fam := by
  induction fam generalizing g with
  | nil => simp [famFold]
  | cons p rest ih =>
    obtain ⟨f, v⟩ := p
    rw [keysOf_cons] at hdisj hnd
    have hstep : famFold g ((f, v) :: rest) = famFold (setKey g f v) rest := by
      simp [famFold]
    have hdisj2 : ∀ f' ∈ keysOf rest, f' ∉ keysOf (g ++ [(f, v)]) := by
      intro f' hf'
      rw [keysOf_append]
      simp only [List.mem_append]
      rintro (hin | hin)
      · exact hdisj f' (List.mem_cons_of_mem _ hf') hin
      · simp only [keysOf, List.map_cons, List.map_nil, List.mem_singleton] at hin
        rw [hin] at hf'
        exact (List.nodup_cons.mp hnd).1 hf'
    rw [hstep, setKey_of_not_mem (hdisj f (by simp)) v,
      ih (g ++ [(f, v)]) hdisj2 hnd.of_cons]
    simp

theorem lookup_some_mem {α : Type} {l : List (String × α)} {k : String} {v : α}
    (h : l.lookup k = some v) : (k, v) ∈ l := by
  induction l with
  | nil => simp [List.lookup] at h
  | cons p rest ih =>
    obtain ⟨k', v'⟩ := p
    rw [List.lookup] at h
    cases hbe : (k == k') with
    | true =>
      rw [hbe] at h
      have hv : v' = v := by
        have h2 : some v' = some v := h
        injection h2
      have hk : k = k' := by simpa using hbe
      simp [hk, hv]
    | false =>
      rw [hbe] at h
      have h2 : List.lookup k rest = some v := h
      exact List.mem_cons_of_mem _ (ih h2)

theorem lookup_groupPluralsGoP_snd (l res : List (String × JValue))
    (pgs : List (String × List (String × JValue))) (K : String) :
    ((groupPluralsGoP l res pgs).2).lookup K =
      if (familyOf K l).isEmpty then pgs.lookup K
      else some (famFold ((pgs.lookup K).getD []) (familyOf K l)) := by
  induction l, res, pgs using groupPluralsGoP.induct with
  | case1 res pgs => simp [groupPluralsGoP, familyOf_nil]
  | case2 k v rest res pgs h ih =>
    rw [groupPluralsGoP.eq_2, dif_pos h]
    obtain ⟨⟨b, f⟩, hbf⟩ := Option.isSome_iff_exists.mp h
    have hget : (parsePluralKey k).get h = (b, f) := by
      simp [hbf]
    by_cases hb : b = K
    · rw [hb] at hbf hget
      rw [familyOf_cons_of_base v rest hbf]
      rw [ih]
      have hlk : (pluralInsertP pgs ((parsePluralKey k).get h) v).lookup K
          = some (setKey ((pgs.lookup K).getD []) f v) := by
        unfold pluralInsertP
        rw [hget]
        exact lookup_setKey_self pgs K _
      by_cases hemp : (familyOf K rest).isEmpty
      · rw [if_pos hemp, if_neg (by simp), hlk]
        have : familyOf K rest = [] := by
          simpa [List.isEmpty_iff] using hemp
        rw [this]
        simp [famFold]
      · rw [if_neg hemp, if_neg (by simp), hlk]
        simp only [Option.getD_some]
        rw [show famFold ((pgs.lookup K).getD []) ((f, v) :: familyOf K rest)
            = famFold (setKey ((pgs.lookup K).getD []) f v) (familyOf K rest) from by
          simp [famFold]]
    · rw [familyOf_cons_of_ne v rest hbf hb]
      rw [ih]
      have hlk : (pluralInsertP pgs ((parsePluralKey k).get h) v).lookup K
          = pgs.lookup K := by
        unfold pluralInsertP
        rw [hget]
        exact lookup_setKey_of_ne pgs (fun he => hb he.symm) _
      rw [hlk]
  | case3 k v rest res pgs h h2 ih1 ih2 =>
    rw [groupPluralsGoP.eq_2, dif_neg h, dif_pos h2]
    have hp : parsePluralKey k = none := by
      cases hp : parsePluralKey k with
      | none => rfl
      | some x => rw [hp] at h; simp at h
    rw [familyOf_cons_of_none K v rest hp]
    exact ih2
  | case4 k v rest res pgs h h2 ih =>
    rw [groupPluralsGoP.eq_2, dif_neg h, dif_neg h2]
    have hp : parsePluralKey k = none := by
      cases hp : parsePluralKey k with
      | none => rfl
      | some x => rw [hp] at h; simp at h
    rw [familyOf_cons_of_none K v rest hp]
    exact ih

theorem mem_icuOfGroupsP_of_base (res : List (String × JValue))
    (pgs : List (String × List (String × JValue))) {b : String}
    {forms : List (String × JValue)}
    (hmem : (b, forms) ∈ pgs) (hnd : (keysOf pgs).Nodup) :
    (b, .str (createICUPlural forms)) ∈ icuOfGroupsP res pgs := by
  induction pgs generalizing res with
  | nil => simp at hmem
  | cons g rest ih =>
    obtain ⟨b', forms'⟩ := g
    rw [keysOf_cons] at hnd
    rw [show icuOfGroupsP res ((b', forms') :: rest) =
        icuOfGroupsP (setKey res b' (.str (createICUPlural forms'))) rest from by
      rw [icuOfGroupsP]]
    rcases List.mem_cons.mp hmem with he | hm
    · obtain ⟨he1, he2⟩ := Prod.mk.injEq .. ▸ he
      rw [← he1, ← he2]
      apply mem_icuOfGroupsP
      · rw [← he1] at *
        exact mem_setKey_self res b _
      · intro b'' hb'' heq
        rw [heq, he1] at hb''
        exact (List.nodup_cons.mp hnd).1 hb''
    · exact ih _ hm hnd.of_cons

theorem mem_convertEntriesGoP_value (l res : List (String × JValue))
    {k : String} {v : JValue}
    (hmem : (k, v) ∈ l) (hnd : (keysOf l).Nodup) (hres : k ∉ keysOf res) :
    (k, convertValueP v) ∈ convertEntriesGoP l res := by
  induction l generalizing res with
  | nil => simp at hmem
  | cons p rest ih =>
    obtain ⟨k', v'⟩ := p
    rw [convertEntriesGoP_cons, keysOf_cons] at *
    rcases List.mem_cons.mp hmem with he | hm
    · obtain ⟨he1, he2⟩ := Prod.mk.injEq .. ▸ he
      apply mem_convertEntriesGoP_res
      · rw [← he1, ← he2]
        exact mem_setKey_self res k (convertValueP v)
      · rw [he1]
        exact (List.nodup_cons.mp hnd).1
    · have hkmem : k ∈ keysOf rest := mem_keysOf_of_mem hm
      have hne : k ≠ k' := fun he => (List.nodup_cons.mp hnd).1 (he ▸ hkmem)
      apply ih _ hm hnd.of_cons
      intro hc
      rcases keysOf_setKey_sub res k' _ k hc with hin | he
      · exact hres hin
      · exact hne he

theorem interpAux_noBrace_append (d t : List Char) (hd : ∀ c ∈ d, c ≠ '{') :
    interpAux (d ++ t) = d ++ interpAux t := by
  induction d with
  | nil => simp
  | cons c d' ih =>
    have hcne : c ≠ '{' := hd c (by simp)
    rw [List.cons_append,
      interpAux.eq_3 c _ (fun l hc _ => absurd hc hcne),
      ih (fun c' hc' => hd c' (by simp [hc']))]
    rfl

theorem nestAux_noDollar_append (d t : List Char) (hd : ∀ c ∈ d, c ≠ '$') :
    nestAux (d ++ t) = d ++ nestAux t := by
  induction d with
  | nil => simp
  | cons c d' ih =>
    have hcne : c ≠ '$' := hd c (by simp)
    rw [List.cons_append,
      nestAux.eq_3 c _ (fun l hc _ => absurd hc hcne),
      ih (fun c' hc' => hd c' (by simp [hc']))]
    rfl

theorem interpAux_icu_prefix (t : List Char) :
    interpAux ("\x7bcount, plural, ".data ++ t)
      = "\x7bcount, plural, ".data ++ interpAux t := by
  rw [show "\x7bcount, plural, ".data = '{' :: "count, plural, ".data from rfl,
    List.cons_append]
  rw [interpAux.eq_3 '{' _ (fun l _ hq => by
    rw [show "count, plural, ".data = 'c' :: "ount, plural, ".data from rfl,
      List.cons_append] at hq
    injection hq with h1 _
    exact absurd h1 (by decide))]
  rw [interpAux_noBrace_append _ t (by decide)]
  rfl

theorem nestAux_icu_prefix (t : List Char) :
    nestAux ("\x7bcount, plural, ".data ++ t)
      = "\x7bcount, plural, ".data ++ nestAux t :=
  nestAux_noDollar_append _ t (by decide)

theorem interpStep_reconstruct {l run rest : List Char}
    (h : interpStep l = some (run, rest)) : l = run ++ '}' :: '}' :: rest := by
  have hTD := List.takeWhile_append_dropWhile notRBrace l
  unfold interpStep at h
  split at h
  · exact absurd h (by simp)
  · split at h
    · rename_i heq
      simp only [Option.some.injEq, Prod.mk.injEq] at h
      obtain ⟨h1, h2⟩ := h
      rw [← h1, ← h2, ← heq, hTD]
    · exact absurd h (by simp)

theorem nestStep_reconstruct {l run rest : List Char}
    (h : nestStep l = some (run, rest)) : l = run ++ ')' :: rest := by
  have hTD := List.takeWhile_append_dropWhile notRParen l
  unfold nestStep at h
  split at h
  · exact absurd h (by simp)
  · split at h
    · rename_i heq
      simp only [Option.some.injEq, Prod.mk.injEq] at h
      obtain ⟨h1, h2⟩ := h
      rw [← h1, ← h2, ← heq, hTD]
    · exact absurd h (by simp)

theorem interpAux_getLast (l : List Char) :
    l.getLast? = some '}' → (interpAux l).getLast? = some '}' := by
  induction l using interpAux.induct with
  | case1 =>
    intro h
    simp at h
  | case2 l hs ih =>
    intro h
    obtain ⟨⟨run, rest⟩, heq⟩ := Option.isSome_iff_exists.mp hs
    have hrec := interpStep_reconstruct heq
    rw [interpAux.eq_2, dif_pos hs]
    simp only [heq, Option.get_some] at ih ⊢
    rw [show ('{' :: '{' :: l : List Char)
        = ('{' :: '{' :: run ++ ['}', '}']) ++ rest from by simp [hrec],
      List.getLast?_append] at h
    cases hgr : rest.getLast? with
    | none =>
      have hre : rest = [] := List.getLast?_eq_none_iff.mp hgr
      subst hre
      rw [show interpAux [] = [] from by rw [interpAux]]
      rw [show ('{' :: (run ++ '}' :: ([] : List Char)))
          = ('{' :: run) ++ ['}'] from by simp, List.getLast?_concat]
    | some d =>
      rw [hgr] at h
      have h2 : (some d : Option Char) = some '}' := h
      have hd : d = '}' := by injection h2
      have hout := ih (by rw [hgr, hd])
      rw [show ('{' :: (run ++ '}' :: interpAux rest))
          = ('{' :: run ++ ['}']) ++ interpAux rest from by simp,
        List.getLast?_append, hout]
      rfl
  | case3 l hs ih =>
    intro h
    rw [interpAux.eq_2, dif_neg hs]
    rw [List.getLast?_cons_cons] at h
    have hout := ih h
    rw [show ('{' :: interpAux ('{' :: l)) = ['{'] ++ interpAux ('{' :: l) from rfl,
      List.getLast?_append, hout]
    rfl
  | case4 c rest hside ih =>
    intro h
    rw [interpAux.eq_3 c rest hside]
    cases rest with
    | nil =>
      have hc : c = '}' := by simpa using h
      rw [show interpAux [] = [] from by rw [interpAux], hc]
      simp
    | cons a rest' =>
      rw [List.getLast?_cons_cons] at h
      have hout := ih h
      rw [show (c :: interpAux (a :: rest')) = [c] ++ interpAux (a :: rest') from rfl,
        List.getLast?_append, hout]
      rfl

theorem nestAux_getLast (l : List Char) :
    l.getLast? = some '}' → (nestAux l).getLast? = some '}' := by
  induction l using nestAux.induct with
  | case1 =>
    intro h
    simp at h
  | case2 l hs ih =>
    intro h
    obtain ⟨⟨run, rest⟩, heq⟩ := Option.isSome_iff_exists.mp hs
    have hrec := nestStep_reconstruct heq
    rw [nestAux.eq_2, dif_pos hs]
    simp only [heq, Option.get_some] at ih ⊢
    rw [show ('$' :: 't' :: '(' :: l : List Char)
        = ('$' :: 't' :: '(' :: run ++ [')']) ++ rest from by simp [hrec],
      List.getLast?_append] at h
    cases hgr : rest.getLast? with
    | none =>
      rw [hgr] at h
      have h2 : (('$' :: 't' :: '(' :: run ++ [')'] : List Char)).getLast?
          = some '}' := h
      rw [show ('$' :: 't' :: '(' :: run ++ [')'] : List Char)
          = ('$' :: 't' :: '(' :: run) ++ [')'] from by simp,
        List.getLast?_concat] at h2
      exact absurd h2 (by decide)
    | some d =>
      rw [hgr] at h
      have h2 : (some d : Option Char) = some '}' := h
      have hd : d = '}' := by injection h2
      have hout := ih (by rw [hgr, hd])
      rw [show ('[' :: 'R' :: 'E' :: 'F' :: ':' :: (run ++ ']' :: nestAux rest))
          = ('[' :: 'R' :: 'E' :: 'F' :: ':' :: run ++ [']']) ++ nestAux rest from by
        simp, List.getLast?_append, hout]
      rfl
  | case3 l hs ih =>
    intro h
    rw [nestAux.eq_2, dif_neg hs]
    rw [List.getLast?_cons_cons] at h
    have hout := ih h
    rw [show ('$' :: nestAux ('t' :: '(' :: l)) = ['$'] ++ nestAux ('t' :: '(' :: l)
      from rfl, List.getLast?_append, hout]
    rfl
  | case4 c rest hside ih =>
    intro h
    rw [nestAux.eq_3 c rest hside]
    cases rest with
    | nil =>
      have hc : c = '}' := by simpa using h
      rw [show nestAux [] = [] from by rw [nestAux], hc]
      simp
    | cons a rest' =>
      rw [List.getLast?_cons_cons] at h
      have hout := ih h
      rw [show (c :: nestAux (a :: rest')) = [c] ++ nestAux (a :: rest') from rfl,
        List.getLast?_append, hout]
      rfl

theorem icu_pipeline_shape (g : List (String × JValue)) :
    (∃ t, (convertNesting (convertInterpolation (createICUPlural g))).data
        = "\x7bcount, plural, ".data ++ t) ∧
    ((convertNesting (convertInterpolation (createICUPlural g))).data).getLast?
        = some '}' := by
  have hdval : (convertNesting (convertInterpolation (createICUPlural g))).data
      = nestAux (interpAux ((createICUPlural g).data)) := rfl
  have hdata : (createICUPlural g).data
      = "\x7bcount, plural, ".data ++
        ((joinSep " " ((jsEntries g).map (fun p =>
            icuSelector p.1 ++ "\x7b" ++ branchText p.2 ++ "\x7d"))).data ++ ['}']) := by
    unfold createICUPlural
    rw [String.data_append, String.data_append, List.append_assoc]
  constructor
  · exact ⟨nestAux (interpAux ((joinSep " " ((jsEntries g).map (fun p =>
        icuSelector p.1 ++ "\x7b" ++ branchText p.2 ++ "\x7d"))).data ++ ['}'])), by
      rw [hdval, hdata, interpAux_icu_prefix, nestAux_icu_prefix]⟩
  · rw [hdval]
    apply nestAux_getLast
    apply interpAux_getLast
    rw [hdata, ← List.append_assoc, List.getLast?_concat]

/-- No key of the level, nor of any nested level, matches the
plural-suffix pattern. -/
def noPluralL : List (String × JValue) → Bool
  | [] => true
  | (k, v) :: rest =>
    (parsePluralKey k).isNone &&
    (if isNestedObject v then noPluralL (objEntries v) else true) &&
    noPluralL rest
termination_by l => sizeOf l
decreasing_by
  all_goals simp
  all_goals (have hso := sizeOf_objEntries_le v; omega)

theorem noPluralL_nil : noPluralL [] = true := by rw [noPluralL]

theorem noPluralL_cons (k : String) (v : JValue) (rest : List (String × JValue)) :
    noPluralL ((k, v) :: rest) =
      ((parsePluralKey k).isNone &&
        (if isNestedObject v then noPluralL (objEntries v) else true) &&
        noPluralL rest) := by
  rw [noPluralL]

/-- The shape of a level with string leaves blanked: keys, nesting and
non-string scalars are kept, every string leaf becomes `""`.  Two levels
with equal `eraseStrL` have the same key sets and nesting shape at every
level and can differ only in the contents of string leaves. -/
def eraseStrL : List (String × JValue) → List (String × JValue)
  | [] => []
  | (k, v) :: rest =>
    (k, if isNestedObject v then JValue.obj (eraseStrL (objEntries v))
        else if isStringV v then JValue.str "" else v) :: eraseStrL rest
termination_by l => sizeOf l
decreasing_by
  all_goals simp
  all_goals (have hso := sizeOf_objEntries_le v; omega)

theorem eraseStrL_nil : eraseStrL [] = [] := by rw [eraseStrL]

theorem eraseStrL_cons (k : String) (v : JValue) (rest : List (String × JValue)) :
    eraseStrL ((k, v) :: rest) =
      (k, if isNestedObject v then JValue.obj (eraseStrL (objEntries v))
          else if isStringV v then JValue.str "" else v) :: eraseStrL rest := by
  rw [eraseStrL]

/-- The effect of `groupPluralsP` on a level without plural-suffixed
keys: every nested object is grouped recursively and everything else is
kept. -/
def gplMap (l : List (String × JValue)) : List (String × JValue) :=
  l.map (fun p =>
    if isNestedObject p.2 then (p.1, JValue.obj (groupPluralsP (objEntries p.2))) else p)

theorem gplMap_nil : gplMap [] = [] := rfl

theorem gplMap_cons (k : String) (v : JValue) (rest : List (String × JValue)) :
    gplMap ((k, v) :: rest) =
      (k, if isNestedObject v then JValue.obj (groupPluralsP (objEntries v)) else v)
        :: gplMap rest := by
  simp only [gplMap, List.map_cons]
  split <;> rfl

theorem keysOf_gplMap (l : List (String × JValue)) : keysOf (gplMap l) = keysOf l := by
  induction l with
  | nil => rfl
  | cons p rest ih =>
    obtain ⟨k, v⟩ := p
    rw [gplMap_cons, keysOf_cons, keysOf_cons, ih]

theorem nodup_keysOf_of_wfL {l : List (String × JValue)} (h : wfL l = true) :
    (keysOf l).Nodup := by
  induction l with
  | nil => simp [keysOf]
  | cons p rest ih =>
    obtain ⟨k, v⟩ := p
    rw [wfL_cons] at h
    simp only [Bool.and_eq_true] at h
    obtain ⟨⟨hno, _⟩, hrest⟩ := h
    rw [keysOf_cons, List.nodup_cons]
    refine ⟨?_, ih hrest⟩
    intro hm
    rw [← any_key_eq_mem_keysOf] at hm
    rw [hm] at hno
    simp at hno

theorem groupPluralsGoP_noPlural (l : List (String × JValue)) :
    ∀ (res : List (String × JValue))
      (pgs : List (String × List (String × JValue))),
      noPluralL l = true → (keysOf l).Nodup →
      (∀ k ∈ keysOf l, k ∉ keysOf res) →
      groupPluralsGoP l res pgs = (res ++ gplMap l, pgs) := by
  induction l with
  | nil =>
    intro res pgs _ _ _
    simp [groupPluralsGoP, gplMap]
  | cons p rest ih =>
    obtain ⟨k, v⟩ := p
    intro res pgs hnp hnd hdisj
    rw [noPluralL_cons] at hnp
    simp only [Bool.and_eq_true] at hnp
    obtain ⟨⟨hknone, hvnp⟩, hrestnp⟩ := hnp
    have hknot : ¬ (parsePluralKey k).isSome = true := by
      rw [Option.isNone_iff_eq_none] at hknone
      simp [hknone]
    rw [keysOf_cons] at hnd hdisj
    have hkres : k ∉ keysOf res := hdisj k (by simp)
    by_cases h2 : isNestedObject v
    · rw [groupPluralsGoP.eq_2, dif_neg hknot, dif_pos h2, ← groupPluralsP_def,
        setKey_of_not_mem hkres _,
        ih _ pgs hrestnp hnd.of_cons ?_, gplMap_cons, if_pos h2]
      · simp
      · intro k' hk'
        rw [keysOf_append]
        simp only [List.mem_append]
        rintro (hin | hin)
        · exact hdisj k' (List.mem_cons_of_mem _ hk') hin
        · simp only [keysOf, List.map_cons, List.map_nil, List.mem_singleton] at hin
          rw [hin] at hk'
          exact (List.nodup_cons.mp hnd).1 hk'
    · rw [groupPluralsGoP.eq_2, dif_neg hknot, dif_neg h2,
        setKey_of_not_mem hkres _,
        ih _ pgs hrestnp hnd.of_cons ?_, gplMap_cons, if_neg h2]
      · simp
      · intro k' hk'
        rw [keysOf_append]
        simp only [List.mem_append]
        rintro (hin | hin)
        · exact hdisj k' (List.mem_cons_of_mem _ hk') hin
        · simp only [keysOf, List.map_cons, List.map_nil, List.mem_singleton] at hin
          rw [hin] at hk'
          exact (List.nodup_cons.mp hnd).1 hk'

theorem groupPluralsP_noPlural (l : List (String × JValue))
    (hnp : noPluralL l = true) (hnd : (keysOf l).Nodup) :
    groupPluralsP l = gplMap l := by
  rw [groupPluralsP_def, groupPluralsGoP_noPlural l [] [] hnp hnd (by simp [keysOf])]
  simp [icuOfGroupsP]

theorem isNestedObject_obj (o : List (String × JValue)) :
    isNestedObject (JValue.obj o) = true := rfl

theorem objEntries_obj (o : List (String × JValue)) :
    objEntries (JValue.obj o) = o := rfl

theorem groupPluralsP_preserves (d : Nat) :
    ∀ l : List (String × JValue), jdepthL l ≤ d → noPluralL l = true → wfL l = true →
      noPluralL (groupPluralsP l) = true ∧ wfL (groupPluralsP l) = true ∧
      eraseStrL (groupPluralsP l) = eraseStrL l := by
  induction d using Nat.strong_induction_on with
  | _ d ihd =>
    intro l hd hnp hwf
    have hnd : (keysOf l).Nodup := nodup_keysOf_of_wfL hwf
    rw [groupPluralsP_noPlural l hnp hnd]
    clear hnd
    induction l with
    | nil =>
      rw [gplMap_nil]
      exact ⟨noPluralL_nil, wfL_nil, rfl⟩
    | cons p rest ih =>
      obtain ⟨k, v⟩ := p
      rw [noPluralL_cons] at hnp
      rw [wfL_cons] at hwf
      rw [jdepthL_cons] at hd
      simp only [Bool.and_eq_true] at hnp hwf
      obtain ⟨⟨hknone, hvnp⟩, hrestnp⟩ := hnp
      obtain ⟨⟨hno, hwv⟩, hrestwf⟩ := hwf
      have hdr : jdepthL rest ≤ d := by omega
      obtain ⟨ihn, ihw, ihe⟩ := ih hdr hrestnp hrestwf
      have hnokeys : k ∉ keysOf (gplMap rest) := by
        rw [keysOf_gplMap]
        intro hm
        rw [← any_key_eq_mem_keysOf] at hm
        rw [hm] at hno
        simp at hno
      have hanyg : (gplMap rest).any (fun p => p.1 = k) = false := by
        by_contra hc
        simp only [Bool.not_eq_false] at hc
        exact hnokeys ((any_key_eq_mem_keysOf _ _).mp hc)
      by_cases h2 : isNestedObject v
      · have hes : jdepthL (objEntries v) < d := by
          have := jdepth_of_nested v h2
          omega
        have hvnp2 : noPluralL (objEntries v) = true := by
          rw [if_pos h2] at hvnp
          exact hvnp
        have hvwf : wfL (objEntries v) = true := by
          rw [wfV, if_pos h2] at hwv
          exact hwv
        obtain ⟨hgn, hgw, hge⟩ :=
          ihd (jdepthL (objEntries v)) hes (objEntries v) (le_refl _) hvnp2 hvwf
        rw [gplMap_cons, if_pos h2]
        refine ⟨?_, ?_, ?_⟩
        · rw [noPluralL_cons]
          simp only [isNestedObject_obj, objEntries_obj]
          simp [hknone, hgn, ihn]
        · rw [wfL_cons, wfV]
          simp only [isNestedObject_obj, objEntries_obj]
          simp [hanyg, hgw, ihw]
        · rw [eraseStrL_cons, eraseStrL_cons]
          simp [isNestedObject_obj, objEntries_obj, h2, hge, ihe]
      · rw [gplMap_cons, if_neg h2]
        refine ⟨?_, ?_, ?_⟩
        · rw [noPluralL_cons, if_neg h2]
          simp [hknone, ihn]
        · rw [wfL_cons, wfV, if_neg h2]
          simp [hanyg, ihw]
        · rw [eraseStrL_cons, eraseStrL_cons, ihe]

theorem convertEntriesGoP_append_form (m : List (String × JValue)) :
    ∀ res : List (String × JValue), (keysOf m).Nodup →
      (∀ k ∈ keysOf m, k ∉ keysOf res) →
      convertEntriesGoP m res = res ++ m.map (fun p => (p.1, convertValueP p.2)) := by
  induction m with
  | nil =>
    intro res _ _
    simp [convertEntriesGoP]
  | cons p rest ih =>
    obtain ⟨k, v⟩ := p
    intro res hnd hdisj
    rw [keysOf_cons] at hnd hdisj
    have hkres : k ∉ keysOf res := hdisj k (by simp)
    rw [convertEntriesGoP_cons, setKey_of_not_mem hkres _,
      ih _ hnd.of_cons ?_, List.map_cons]
    · simp
    · intro k' hk'
      rw [keysOf_append]
      simp only [List.mem_append]
      rintro (hin | hin)
      · exact hdisj k' (List.mem_cons_of_mem _ hk') hin
      · simp only [keysOf, List.map_cons, List.map_nil, List.mem_singleton] at hin
        rw [hin] at hk'
        exact (List.nodup_cons.mp hnd).1 hk'

theorem conv_noPlural_erase (d : Nat) :
    ∀ l : List (String × JValue), jdepthL l ≤ d → noPluralL l = true → wfL l = true →
      eraseStrL (convertTranslationsP l) = eraseStrL l := by
  induction d using Nat.strong_induction_on with
  | _ d ihd =>
    intro l hd hnp hwf
    have hnd : (keysOf l).Nodup := nodup_keysOf_of_wfL hwf
    rw [convertTranslationsP, groupPluralsP_noPlural l hnp hnd,
      convertEntriesGoP_append_form _ [] (by rw [keysOf_gplMap]; exact hnd)
        (by simp [keysOf]), List.nil_append]
    clear hnd
    induction l with
    | nil => rw [gplMap_nil, List.map_nil]
    | cons p rest ih =>
      obtain ⟨k, v⟩ := p
      rw [noPluralL_cons] at hnp
      rw [wfL_cons] at hwf
      rw [jdepthL_cons] at hd
      simp only [Bool.and_eq_true] at hnp hwf
      obtain ⟨⟨hknone, hvnp⟩, hrestnp⟩ := hnp
      obtain ⟨⟨hno, hwv⟩, hrestwf⟩ := hwf
      have hdr : jdepthL rest ≤ d := by omega
      have ihe := ih hdr hrestnp hrestwf
      by_cases h2 : isNestedObject v
      · have hes : jdepthL (objEntries v) < d := by
          have := jdepth_of_nested v h2
          omega
        have hvnp2 : noPluralL (objEntries v) = true := by
          rw [if_pos h2] at hvnp
          exact hvnp
        have hvwf : wfL (objEntries v) = true := by
          rw [wfV, if_pos h2] at hwv
          exact hwv
        obtain ⟨hgn, hgw, hge⟩ :=
          groupPluralsP_preserves (jdepthL (objEntries v)) (objEntries v) (le_refl _)
            hvnp2 hvwf
        have hconv := ihd (jdepthL (objEntries v)) hes (groupPluralsP (objEntries v))
          (jdepthL_groupPluralsP (objEntries v)) hgn hgw
        rw [gplMap_cons, if_pos h2, List.map_cons]
        have hcv : convertValueP (JValue.obj (groupPluralsP (objEntries v)))
            = JValue.obj (convertTranslationsP (groupPluralsP (objEntries v))) := by
          simp [convertValueP, isStringV, isNestedObject_obj, objEntries_obj]
        rw [hcv, eraseStrL_cons, eraseStrL_cons]
        simp only [isNestedObject_obj, objEntries_obj]
        rw [hconv, hge, ihe]
        simp [h2]
      · rw [gplMap_cons, if_neg h2, List.map_cons]
        by_cases h1 : isStringV v
        · obtain ⟨s, rfl⟩ : ∃ s, v = JValue.str s := by
            cases v with
            | str s => exact ⟨s, rfl⟩
            | _ => simp [isStringV] at h1
          have hcv : convertValueP (JValue.str s)
              = JValue.str (convertNesting (convertInterpolation s)) := by
            simp [convertValueP, isStringV, strVal]
          rw [hcv, eraseStrL_cons, eraseStrL_cons, ihe]
          simp [isNestedObject, isStringV]
        · have hcv : convertValueP v = v := by
            simp [convertValueP, h1, h2]
          rw [hcv, eraseStrL_cons, eraseStrL_cons, ihe]

/-!
The faithful JavaScript-object semantics of the converter: `jsEntries`
for `Object.entries`, `jsAssign` for `o[k] = v`, and the inherited
truthiness of `Object.prototype` members in `!pluralGroups[baseKey]`.
The `...P` definitions above are the plain-object model of the same
loops (pure insertion order, key-absence truthiness, plain
assignment); the bridge theorems below show the two agree on trees
whose keys are `safeKey`-safe, which is where the ordering and
membership lemma stack applies.
-/

theorem sizeOf_perm {α : Type} [SizeOf α] {l l' : List α} (h : List.Perm l l') :
    sizeOf l = sizeOf l' := by
  induction h with
  | nil => rfl
  | cons a h ih =>
    simp only [List.cons.sizeOf_spec]
    omega
  | swap a b l =>
    simp only [List.cons.sizeOf_spec]
    omega
  | trans h1 h2 ih1 ih2 => rw [ih1, ih2]

theorem jsEntries_perm {α : Type} (l : List (String × α)) :
    List.Perm (jsEntries l) l := by
  unfold jsEntries
  exact ((List.perm_insertionSort _ _).append_right _).trans
    (List.filter_append_perm _ l)

theorem sizeOf_jsEntries (l : List (String × JValue)) :
    sizeOf (jsEntries l) = sizeOf l :=
  sizeOf_perm (jsEntries_perm l)

theorem jsEntries_eq_self {α : Type} (l : List (String × α))
    (h : ∀ k ∈ keysOf l, isArrayIndex k = false) : jsEntries l = l := by
  have hpos : l.filter (fun p => isArrayIndex p.1) = [] := by
    rw [List.filter_eq_nil]
    intro p hp
    simp [h p.1 (List.mem_map_of_mem Prod.fst hp)]
  have hneg : l.filter (fun p => !isArrayIndex p.1) = l := by
    rw [List.filter_eq_self]
    intro p hp
    simp [h p.1 (List.mem_map_of_mem Prod.fst hp)]
  rw [jsEntries, hpos, hneg]
  rfl

theorem jdepthL_perm {l l' : List (String × JValue)} (h : List.Perm l l') :
    jdepthL l = jdepthL l' := by
  induction h with
  | nil => rfl
  | cons p h ih =>
    obtain ⟨k, v⟩ := p
    rw [jdepthL_cons, jdepthL_cons, ih]
  | swap p q l =>
    obtain ⟨k1, v1⟩ := p
    obtain ⟨k2, v2⟩ := q
    rw [jdepthL_cons, jdepthL_cons, jdepthL_cons, jdepthL_cons, Nat.max_left_comm]
  | trans h1 h2 ih1 ih2 => rw [ih1, ih2]

theorem jdepthL_jsEntries (l : List (String × JValue)) :
    jdepthL (jsEntries l) = jdepthL l :=
  jdepthL_perm (jsEntries_perm l)

theorem jsAssign_eq_setKey {α : Type} (l : List (String × α)) {k : String} (v : α)
    (h : k ≠ "__proto__") : jsAssign l k v = setKey l k v := if_neg h

theorem lookup_eq_none_of_not_mem_keysOf {α : Type} {l : List (String × α)} {k : String}
    (h : k ∉ keysOf l) : l.lookup k = none := by
  induction l with
  | nil => rfl
  | cons p rest ih =>
    obtain ⟨k', v'⟩ := p
    rw [keysOf_cons] at h
    rw [List.lookup]
    have hne : (k == k') = false := by
      simp only [beq_eq_false_iff_ne, ne_eq]
      intro he
      exact h (he ▸ List.mem_cons_self _ _)
    rw [hne]
    exact ih (fun hm => h (List.mem_cons_of_mem _ hm))

/-- Lines 48–51 of `src/converter.js`:
`if (!pluralGroups[baseKey]) { pluralGroups[baseKey] = {}; }` followed
by `pluralGroups[baseKey][form] = value`.  The read
`pluralGroups[baseKey]` is truthy when `baseKey` is an own key (the
group object), but also when it is an inherited `Object.prototype`
member: then the `{}` initialisation is skipped and the write lands on
the built-in (never on an own key of `pluralGroups`), so the family is
invisible to the later `Object.entries(pluralGroups)` loop. -/
def pluralInsert (pgs : List (String × List (String × JValue)))
    (bf : String × String) (v : JValue) : List (String × List (String × JValue)) :=
  if (keysOf pgs).contains bf.1 then
    setKey pgs bf.1 (setKey ((pgs.lookup bf.1).getD []) bf.2 v)
  else if protoNames.contains bf.1 then pgs
  else pgs ++ [(bf.1, setKey [] bf.2 v)]

theorem pluralInsert_eq_P (pgs : List (String × List (String × JValue)))
    (bf : String × String) (v : JValue) (h : bf.1 ∉ protoNames) :
    pluralInsert pgs bf v = pluralInsertP pgs bf v := by
  unfold pluralInsert pluralInsertP
  by_cases hc : (keysOf pgs).contains bf.1
  · rw [if_pos hc]
  · rw [if_neg hc, if_neg (fun hm => h (List.mem_of_elem_eq_true hm))]
    have hnm : bf.1 ∉ keysOf pgs := fun hm => hc (List.elem_eq_true_of_mem hm)
    rw [setKey_of_not_mem hnm, lookup_eq_none_of_not_mem_keysOf hnm]
    rfl

/-- The second loop of `groupPlurals` of `src/converter.js`
(`result[baseKey] = createICUPlural(forms)`), with the faithful
assignment semantics. -/
def icuOfGroups : List (String × JValue) →
    List (String × List (String × JValue)) → List (String × JValue)
  | result, [] => result
  | result, g :: rest => icuOfGroups (jsAssign result g.1 (.str (createICUPlural g.2))) rest

theorem icuOfGroups_eq_P (pgs : List (String × List (String × JValue))) :
    ∀ res : List (String × JValue), (∀ b ∈ keysOf pgs, b ≠ "__proto__") →
      icuOfGroups res pgs = icuOfGroupsP res pgs := by
  induction pgs with
  | nil =>
    intro res _
    rfl
  | cons g rest ih =>
    intro res h
    rw [show icuOfGroups res (g :: rest)
        = icuOfGroups (jsAssign res g.1 (.str (createICUPlural g.2))) rest from by
      rw [icuOfGroups]]
    rw [show icuOfGroupsP res (g :: rest)
        = icuOfGroupsP (setKey res g.1 (.str (createICUPlural g.2))) rest from by
      rw [icuOfGroupsP]]
    rw [jsAssign_eq_setKey res _ (h g.1 (by rw [keysOf_cons]; simp))]
    exact ih _ (fun b hb => h b (by rw [keysOf_cons]; exact List.mem_cons_of_mem _ hb))

theorem parsePluralKey_base_length {k b f : String}
    (h : parsePluralKey k = some (b, f)) : b.length < k.length := by
  have h1 := (parsePluralKey_recompose h).1
  have h2 : k.length = b.length + 1 + f.length := by
    rw [h1, String.length_append, String.length_append]
    have h3 : ("_" : String).length = 1 := rfl
    omega
  omega

/-- A key is safe when the plain-object model of the JavaScript object
operations is exact for it: it is not `__proto__` (whose assignment
creates no own key), not an array index (which `Object.entries`
hoists), and if it parses as a plural-suffixed key then its base is not
an inherited `Object.prototype` member (which would defeat
`!pluralGroups[baseKey]`) and is itself safe — the base becomes a key
of the grouped level and is re-parsed by later passes. -/
def safeKey (k : String) : Bool :=
  !(k == "__proto__") && !(isArrayIndex k) &&
  (if h : (parsePluralKey k).isSome then
     !(protoNames.contains ((parsePluralKey k).get h).1) &&
       safeKey ((parsePluralKey k).get h).1
   else true)
termination_by k.length
decreasing_by
  obtain ⟨⟨b, f⟩, hbf⟩ := Option.isSome_iff_exists.mp h
  simp only [hbf, Option.get_some]
  exact parsePluralKey_base_length hbf

theorem safeKey_of_parse_none {k : String} (hp : parsePluralKey k = none) :
    safeKey k = (!(k == "__proto__") && !(isArrayIndex k)) := by
  rw [safeKey]
  simp [hp]

theorem safeKey_of_parse_some {k b f : String} (hp : parsePluralKey k = some (b, f)) :
    safeKey k = (!(k == "__proto__") && !(isArrayIndex k) &&
      (!(protoNames.contains b) && safeKey b)) := by
  rw [safeKey]
  have hs : (parsePluralKey k).isSome = true := by simp [hp]
  rw [dif_pos hs]
  simp [hp]

theorem safeKey_not_proto {k : String} (h : safeKey k = true) : k ≠ "__proto__" := by
  rw [safeKey] at h
  simp only [Bool.and_eq_true, Bool.not_eq_eq_eq_not, Bool.not_true, beq_eq_false_iff_ne,
    ne_eq] at h
  exact h.1.1

theorem safeKey_not_index {k : String} (h : safeKey k = true) :
    isArrayIndex k = false := by
  rw [safeKey] at h
  simp only [Bool.and_eq_true, Bool.not_eq_eq_eq_not, Bool.not_true] at h
  exact h.1.2

theorem safeKey_base {k b f : String} (h : safeKey k = true)
    (hp : parsePluralKey k = some (b, f)) : b ∉ protoNames ∧ safeKey b = true := by
  rw [safeKey_of_parse_some hp] at h
  simp at h
  exact ⟨h.2.1, h.2.2⟩

/-- Every key of the level, and of every nested level, is `safeKey`. -/
def safeL : List (String × JValue) → Bool
  | [] => true
  | (k, v) :: rest =>
    safeKey k && (if isNestedObject v then safeL (objEntries v) else true) && safeL rest
termination_by l => sizeOf l
decreasing_by
  all_goals simp
  all_goals (have hso := sizeOf_objEntries_le v; omega)

theorem safeL_nil : safeL [] = true := by rw [safeL]

theorem safeL_cons (k : String) (v : JValue) (rest : List (String × JValue)) :
    safeL ((k, v) :: rest) =
      (safeKey k && (if isNestedObject v then safeL (objEntries v) else true) &&
        safeL rest) := by
  rw [safeL]

theorem safeL_key {l : List (String × JValue)} {k : String} {v : JValue}
    (h : safeL l = true) (hm : (k, v) ∈ l) : safeKey k = true := by
  induction l with
  | nil => simp at hm
  | cons p rest ih =>
    obtain ⟨k', v'⟩ := p
    rw [safeL_cons] at h
    simp only [Bool.and_eq_true] at h
    rcases List.mem_cons.mp hm with he | hm'
    · obtain ⟨he1, _⟩ := Prod.mk.injEq .. ▸ he
      exact he1 ▸ h.1.1
    · exact ih h.2 hm'

theorem safeL_nested {l : List (String × JValue)} {k : String} {v : JValue}
    (h : safeL l = true) (hm : (k, v) ∈ l) (h2 : isNestedObject v = true) :
    safeL (objEntries v) = true := by
  induction l with
  | nil => simp at hm
  | cons p rest ih =>
    obtain ⟨k', v'⟩ := p
    rw [safeL_cons] at h
    simp only [Bool.and_eq_true] at h
    rcases List.mem_cons.mp hm with he | hm'
    · obtain ⟨_, he2⟩ := Prod.mk.injEq .. ▸ he
      subst he2
      rw [if_pos h2] at h
      exact h.1.2
    · exact ih h.2 hm'

theorem safeL_keys_not_index {l : List (String × JValue)} (h : safeL l = true) :
    ∀ k ∈ keysOf l, isArrayIndex k = false := by
  intro k hk
  obtain ⟨⟨k', v⟩, hm, he⟩ := List.mem_map.mp hk
  exact he ▸ safeKey_not_index (safeL_key h hm)

theorem mem_pluralBasesAcc {b : String} :
    ∀ (l : List (String × JValue)) (acc : List String), b ∈ pluralBasesAcc l acc →
      b ∈ acc ∨ ∃ k v f, (k, v) ∈ l ∧ parsePluralKey k = some (b, f) := by
  intro l
  induction l with
  | nil =>
    intro acc h
    rw [pluralBasesAcc] at h
    exact Or.inl h
  | cons p rest ih =>
    obtain ⟨k, v⟩ := p
    intro acc h
    rw [pluralBasesAcc] at h
    by_cases hp : (parsePluralKey k).isSome
    · rw [dif_pos hp] at h
      obtain ⟨⟨b', f'⟩, hbf⟩ := Option.isSome_iff_exists.mp hp
      rcases ih _ h with hacc | ⟨k', v', f'', hm, hpk⟩
      · split at hacc
        · exact Or.inl hacc
        · rcases List.mem_append.mp hacc with hin | hin
          · exact Or.inl hin
          · simp only [List.mem_singleton] at hin
            refine Or.inr ⟨k, v, ((parsePluralKey k).get hp).2, by simp, ?_⟩
            rw [hin]
            simp [hbf]
      · exact Or.inr ⟨k', v', f'', List.mem_cons_of_mem _ hm, hpk⟩
    · rw [dif_neg hp] at h
      rcases ih _ h with hacc | ⟨k', v', f'', hm, hpk⟩
      · exact Or.inl hacc
      · exact Or.inr ⟨k', v', f'', List.mem_cons_of_mem _ hm, hpk⟩

theorem pluralBasesAcc_safe {l : List (String × JValue)} (hs : safeL l = true)
    {b : String} (h : b ∈ pluralBasesAcc l []) :
    b ∉ protoNames ∧ safeKey b = true := by
  rcases mem_pluralBasesAcc l [] h with hacc | ⟨k, v, f, hm, hpk⟩
  · simp at hacc
  · exact safeKey_base (safeL_key hs hm) hpk

/-- The first loop of `groupPlurals` of `src/converter.js` with the
faithful object semantics: plural-suffixed entries are accumulated with
`pluralInsert`, nested objects are recursively grouped (the recursive
call enumerates them with `Object.entries` again) and assigned, and
plain entries are assigned. -/
def groupPluralsGo : List (String × JValue) → List (String × JValue) →
    List (String × List (String × JValue)) →
    List (String × JValue) × List (String × List (String × JValue))
  | [], result, pgs => (result, pgs)
  | (k, v) :: rest, result, pgs =>
    if h : (parsePluralKey k).isSome then
      groupPluralsGo rest result (pluralInsert pgs ((parsePluralKey k).get h) v)
    else if h2 : isNestedObject v then
      groupPluralsGo rest
        (jsAssign result k
          (.obj (icuOfGroups (groupPluralsGo (jsEntries (objEntries v)) [] []).1
            (jsEntries (groupPluralsGo (jsEntries (objEntries v)) [] []).2))))
        pgs
    else groupPluralsGo rest (jsAssign result k v) pgs
termination_by l _ _ => sizeOf l
decreasing_by
  all_goals simp
  all_goals try omega
  all_goals (rw [sizeOf_jsEntries]
             have hso := sizeOf_objEntries_lt v h2
             omega)

/-- `groupPlurals` of `src/converter.js`: enumerate the level with
`Object.entries`, scan it, then enumerate the accumulated plural groups
with `Object.entries` and compile each into the result. -/
def groupPlurals (translations : List (String × JValue)) : List (String × JValue) :=
  icuOfGroups (groupPluralsGo (jsEntries translations) [] []).1
    (jsEntries (groupPluralsGo (jsEntries translations) [] []).2)

theorem groupPlurals_def (translations : List (String × JValue)) :
    groupPlurals translations =
      icuOfGroups (groupPluralsGo (jsEntries translations) [] []).1
        (jsEntries (groupPluralsGo (jsEntries translations) [] []).2) := rfl

theorem jdepthL_jsAssign (l : List (String × JValue)) (k : String) (v : JValue) :
    jdepthL (jsAssign l k v) ≤ max (jdepthL l) (jdepth v) := by
  unfold jsAssign
  split
  · exact le_max_left _ _
  · exact jdepthL_setKey l k v

theorem jdepthL_icuOfGroups (pgs : List (String × List (String × JValue))) :
    ∀ result : List (String × JValue),
      jdepthL (icuOfGroups result pgs) ≤ jdepthL result := by
  induction pgs with
  | nil =>
    intro result
    simp [icuOfGroups]
  | cons g rest ih =>
    intro result
    have h1 := ih (jsAssign result g.1 (.str (createICUPlural g.2)))
    have h2 := jdepthL_jsAssign result g.1 (.str (createICUPlural g.2))
    simp only [jdepth] at h2
    rw [show icuOfGroups result (g :: rest) =
        icuOfGroups (jsAssign result g.1 (.str (createICUPlural g.2))) rest from by
      rw [icuOfGroups]]
    omega

theorem jdepthL_groupPluralsGo (l result : List (String × JValue))
    (pgs : List (String × List (String × JValue))) :
    jdepthL (groupPluralsGo l result pgs).1 ≤ max (jdepthL l) (jdepthL result) := by
  induction l, result, pgs using groupPluralsGo.induct with
  | case1 result pgs => simp [groupPluralsGo, jdepthL]
  | case2 k v rest result pgs h ih =>
    rw [groupPluralsGo.eq_2, dif_pos h]
    rw [jdepthL_cons] at *
    omega
  | case3 k v rest result pgs h h2 ih1 ih2 =>
    rw [groupPluralsGo.eq_2, dif_neg h, dif_pos h2]
    have hicu := jdepthL_icuOfGroups
      (jsEntries (groupPluralsGo (jsEntries (objEntries v)) [] []).2)
      (groupPluralsGo (jsEntries (objEntries v)) [] []).1
    have hset := jdepthL_jsAssign result k
      (.obj (icuOfGroups (groupPluralsGo (jsEntries (objEntries v)) [] []).1
        (jsEntries (groupPluralsGo (jsEntries (objEntries v)) [] []).2)))
    have hd := jdepth_of_nested v h2
    have hje := jdepthL_jsEntries (objEntries v)
    simp only [jdepth, jdepthL] at hset ih1
    rw [jdepthL_cons] at *
    omega
  | case4 k v rest result pgs h h2 ih =>
    rw [groupPluralsGo.eq_2, dif_neg h, dif_neg h2]
    have hz := jdepth_of_not_nested v h2
    have hset := jdepthL_jsAssign result k v
    rw [jdepthL_cons] at *
    omega

theorem jdepthL_groupPlurals (l : List (String × JValue)) :
    jdepthL (groupPlurals l) ≤ jdepthL l := by
  rw [groupPlurals_def]
  have h1 := jdepthL_icuOfGroups (jsEntries (groupPluralsGo (jsEntries l) [] []).2)
    (groupPluralsGo (jsEntries l) [] []).1
  have h2 := jdepthL_groupPluralsGo (jsEntries l) [] []
  have h3 := jdepthL_jsEntries l
  simp only [jdepthL] at h2
  omega

theorem groupPluralsGo_eq_P (l res : List (String × JValue))
    (pgs : List (String × List (String × JValue))) :
    safeL l = true → groupPluralsGo l res pgs = groupPluralsGoP l res pgs := by
  induction l, res, pgs using groupPluralsGo.induct with
  | case1 res pgs =>
    intro _
    simp [groupPluralsGo, groupPluralsGoP]
  | case2 k v rest res pgs h ih =>
    intro hs
    rw [safeL_cons] at hs
    simp only [Bool.and_eq_true] at hs
    obtain ⟨⟨hsk, _⟩, hsrest⟩ := hs
    obtain ⟨⟨b, f⟩, hbf⟩ := Option.isSome_iff_exists.mp h
    have hget : (parsePluralKey k).get h = (b, f) := by simp [hbf]
    have hbase := safeKey_base hsk hbf
    rw [groupPluralsGo.eq_2, dif_pos h, groupPluralsGoP.eq_2, dif_pos h]
    rw [hget, pluralInsert_eq_P pgs (b, f) v hbase.1] at ih ⊢
    exact ih hsrest
  | case3 k v rest res pgs h h2 ih1 ih2 =>
    intro hs
    rw [safeL_cons] at hs
    simp only [Bool.and_eq_true] at hs
    obtain ⟨⟨hsk, hsv⟩, hsrest⟩ := hs
    have hsnest : safeL (objEntries v) = true := by
      rw [if_pos h2] at hsv
      exact hsv
    rw [groupPluralsGo.eq_2, dif_neg h, dif_pos h2, groupPluralsGoP.eq_2, dif_neg h,
      dif_pos h2]
    have hje : jsEntries (objEntries v) = objEntries v :=
      jsEntries_eq_self _ (safeL_keys_not_index hsnest)
    rw [hje] at ih1 ih2 ⊢
    rw [ih1 hsnest] at ih2 ⊢
    have hbs : ∀ b ∈ keysOf (groupPluralsGoP (objEntries v) [] []).2,
        b ∉ protoNames ∧ safeKey b = true := by
      intro b hb
      rw [keysOf_groupPluralsGoP_snd] at hb
      exact pluralBasesAcc_safe hsnest (by simpa using hb)
    have hje2 : jsEntries (groupPluralsGoP (objEntries v) [] []).2
        = (groupPluralsGoP (objEntries v) [] []).2 :=
      jsEntries_eq_self _ (fun b hb => safeKey_not_index (hbs b hb).2)
    rw [hje2, icuOfGroups_eq_P _ _ (fun b hb => safeKey_not_proto (hbs b hb).2),
      jsAssign_eq_setKey res _ (safeKey_not_proto hsk)] at ih2 ⊢
    exact ih2 hsrest
  | case4 k v rest res pgs h h2 ih =>
    intro hs
    rw [safeL_cons] at hs
    simp only [Bool.and_eq_true] at hs
    obtain ⟨⟨hsk, _⟩, hsrest⟩ := hs
    rw [groupPluralsGo.eq_2, dif_neg h, dif_neg h2, groupPluralsGoP.eq_2, dif_neg h,
      dif_neg h2]
    rw [jsAssign_eq_setKey res v (safeKey_not_proto hsk)] at ih ⊢
    exact ih hsrest

theorem groupPlurals_eq_P (l : List (String × JValue)) (hs : safeL l = true) :
    groupPlurals l = groupPluralsP l := by
  rw [groupPlurals_def, groupPluralsP_def]
  rw [jsEntries_eq_self l (safeL_keys_not_index hs), groupPluralsGo_eq_P l [] [] hs]
  have hbs : ∀ b ∈ keysOf (groupPluralsGoP l [] []).2,
      b ∉ protoNames ∧ safeKey b = true := by
    intro b hb
    rw [keysOf_groupPluralsGoP_snd] at hb
    exact pluralBasesAcc_safe hs (by simpa using hb)
  rw [jsEntries_eq_self _ (fun b hb => safeKey_not_index (hbs b hb).2),
    icuOfGroups_eq_P _ _ (fun b hb => safeKey_not_proto (hbs b hb).2)]

theorem safeL_setKey {res : List (String × JValue)} (hres : safeL res = true)
    {k : String} {v : JValue} (hk : safeKey k = true)
    (hv : (if isNestedObject v then safeL (objEntries v) else true) = true) :
    safeL (setKey res k v) = true := by
  induction res with
  | nil =>
    rw [show setKey [] k v = [(k, v)] from rfl, safeL_cons, safeL_nil]
    simp [hk, hv]
  | cons p rest ih =>
    obtain ⟨k'', v''⟩ := p
    rw [safeL_cons] at hres
    simp only [Bool.and_eq_true] at hres
    obtain ⟨⟨hk'', hv''⟩, hrest⟩ := hres
    by_cases hke : k'' = k
    · rw [show setKey ((k'', v'') :: rest) k v = (k, v) :: rest from by
        simp [setKey, hke], safeL_cons]
      simp [hk, hv, hrest]
    · rw [show setKey ((k'', v'') :: rest) k v = (k'', v'') :: setKey rest k v from by
        simp [setKey, hke], safeL_cons]
      simp [hk'', hv'', ih hrest]

theorem safeL_icuOfGroupsP (pgs : List (String × List (String × JValue))) :
    ∀ res : List (String × JValue), safeL res = true →
      (∀ b ∈ keysOf pgs, safeKey b = true) → safeL (icuOfGroupsP res pgs) = true := by
  induction pgs with
  | nil =>
    intro res hres _
    simpa [icuOfGroupsP]
  | cons g rest ih =>
    intro res hres hb
    rw [show icuOfGroupsP res (g :: rest)
        = icuOfGroupsP (setKey res g.1 (.str (createICUPlural g.2))) rest from by
      rw [icuOfGroupsP]]
    apply ih _ ?_ (fun b hbm => hb b (by rw [keysOf_cons]; exact List.mem_cons_of_mem _ hbm))
    apply safeL_setKey hres (hb g.1 (by rw [keysOf_cons]; simp))
    simp [isNestedObject]

theorem safeL_groupPluralsP (d : Nat) :
    ∀ l : List (String × JValue), jdepthL l ≤ d → safeL l = true →
      safeL (groupPluralsP l) = true := by
  induction d using Nat.strong_induction_on with
  | _ d ihd =>
    have hgo : ∀ l res pgs, jdepthL l ≤ d → safeL l = true → safeL res = true →
        safeL (groupPluralsGoP l res pgs).1 = true := by
      intro l
      induction l with
      | nil =>
        intro res pgs _ _ hres
        simpa [groupPluralsGoP]
      | cons p rest ihl =>
        obtain ⟨k, v⟩ := p
        intro res pgs hd hs hres
        rw [safeL_cons] at hs
        simp only [Bool.and_eq_true] at hs
        obtain ⟨⟨hsk, hsv⟩, hsrest⟩ := hs
        rw [jdepthL_cons] at hd
        have hdr : jdepthL rest ≤ d := by omega
        by_cases h : (parsePluralKey k).isSome
        · rw [groupPluralsGoP.eq_2, dif_pos h]
          exact ihl _ _ hdr hsrest hres
        · by_cases h2 : isNestedObject v
          · rw [groupPluralsGoP.eq_2, dif_neg h, dif_pos h2, ← groupPluralsP_def]
            apply ihl _ _ hdr hsrest
            apply safeL_setKey hres hsk
            simp only [isNestedObject_obj, objEntries_obj, if_true]
            have hes : jdepthL (objEntries v) < d := by
              have := jdepth_of_nested v h2
              omega
            have hsnest : safeL (objEntries v) = true := by
              rw [if_pos h2] at hsv
              exact hsv
            exact ihd (jdepthL (objEntries v)) hes (objEntries v) (le_refl _) hsnest
          · rw [groupPluralsGoP.eq_2, dif_neg h, dif_neg h2]
            exact ihl _ _ hdr hsrest (safeL_setKey hres hsk (by rw [if_neg h2]))
    intro l hd hs
    rw [groupPluralsP_def]
    apply safeL_icuOfGroupsP _ _ (hgo l [] [] hd hs safeL_nil)
    intro b hb
    rw [keysOf_groupPluralsGoP_snd] at hb
    exact (pluralBasesAcc_safe hs (by simpa using hb)).2

/-- The result loop of `convertTranslations` of `src/converter.js`
(`for (const [key, value] of Object.entries(grouped)) result[key] =
convertValue(value);`) with the faithful object semantics, and
`convertValue` inlined: a string leaf gets interpolation rewriting then
nesting rewriting, a nested object is converted by the full
`convertTranslations` pipeline (group, enumerate, convert values), and
anything else is assigned unchanged. -/
def convertEntriesGo : List (String × JValue) → List (String × JValue) →
    List (String × JValue)
  | [], result => result
  | (k, v) :: rest, result =>
    if isStringV v then
      convertEntriesGo rest
        (jsAssign result k (.str (convertNesting (convertInterpolation (strVal v)))))
    else if h2 : isNestedObject v then
      convertEntriesGo rest
        (jsAssign result k
          (.obj (convertEntriesGo (jsEntries (groupPlurals (objEntries v))) [])))
    else convertEntriesGo rest (jsAssign result k v)
termination_by l _ => (jdepthL l, l.length)
decreasing_by
  all_goals rw [jdepthL_cons]
  all_goals first
    | (apply Prod.Lex.left
       rw [jdepthL_jsEntries]
       have h3 := jdepthL_groupPlurals (objEntries v)
       have h4 := jdepth_of_nested v h2
       omega)
    | (rcases Nat.lt_or_ge (jdepthL rest) (max (jdepth v) (jdepthL rest)) with hlt | hge
       · exact Prod.Lex.left _ _ hlt
       · have heq : max (jdepth v) (jdepthL rest) = jdepthL rest := by omega
         rw [heq]
         exact Prod.Lex.right _ (by simp))

/-- `convertTranslations` of `src/converter.js`: group the plural forms,
then enumerate the grouped level with `Object.entries` and convert every
value into a fresh result object. -/
def convertTranslations (translations : List (String × JValue)) :
    List (String × JValue) :=
  convertEntriesGo (jsEntries (groupPlurals translations)) []

/-- `convertValue` of `src/converter.js`. -/
def convertValue (v : JValue) : JValue :=
  if isStringV v then .str (convertNesting (convertInterpolation (strVal v)))
  else if isNestedObject v then .obj (convertTranslations (objEntries v))
  else v

/-- `convertFile` of `src/converter.js` simply delegates to
`convertTranslations`. -/
def convertFile (data : List (String × JValue)) : List (String × JValue) :=
  convertTranslations data

theorem convertEntriesGo_cons (k : String) (v : JValue)
    (rest result : List (String × JValue)) :
    convertEntriesGo ((k, v) :: rest) result =
      convertEntriesGo rest (jsAssign result k (convertValue v)) := by
  rw [convertEntriesGo.eq_2]
  by_cases h1 : isStringV v
  · rw [if_pos h1]
    simp [convertValue, h1]
  · rw [if_neg h1]
    by_cases h2 : isNestedObject v
    · rw [dif_pos h2]
      simp [convertValue, h1, h2, convertTranslations]
    · rw [dif_neg h2]
      simp [convertValue, h1, h2]

theorem convertTranslations_eq_P (d : Nat) :
    ∀ l : List (String × JValue), jdepthL l ≤ d → safeL l = true →
      convertTranslations l = convertTranslationsP l := by
  induction d using Nat.strong_induction_on with
  | _ d ihd =>
    have hgo : ∀ m res, jdepthL m ≤ d → safeL m = true →
        convertEntriesGo m res = convertEntriesGoP m res := by
      intro m
      induction m with
      | nil =>
        intro res _ _
        simp [convertEntriesGo, convertEntriesGoP]
      | cons p rest ihm =>
        obtain ⟨k, v⟩ := p
        intro res hdm hsm
        rw [safeL_cons] at hsm
        simp only [Bool.and_eq_true] at hsm
        obtain ⟨⟨hsk, hsv⟩, hsrest⟩ := hsm
        rw [jdepthL_cons] at hdm
        rw [convertEntriesGo_cons, convertEntriesGoP_cons,
          jsAssign_eq_setKey res _ (safeKey_not_proto hsk)]
        have hcv : convertValue v = convertValueP v := by
          by_cases h1 : isStringV v
          · simp [convertValue, convertValueP, h1]
          · by_cases h2 : isNestedObject v
            · have hsnest : safeL (objEntries v) = true := by
                rw [if_pos h2] at hsv
                exact hsv
              have hes : jdepthL (objEntries v) < d := by
                have := jdepth_of_nested v h2
                omega
              have hrec := ihd (jdepthL (objEntries v)) hes (objEntries v)
                (le_refl _) hsnest
              simp [convertValue, convertValueP, h1, h2, hrec]
            · simp [convertValue, convertValueP, h1, h2]
        rw [hcv]
        exact ihm _ (by omega) hsrest
    intro l hd hs
    have hsg : safeL (groupPluralsP l) = true :=
      safeL_groupPluralsP (jdepthL l) l (le_refl _) hs
    rw [show convertTranslations l
        = convertEntriesGo (jsEntries (groupPlurals l)) [] from rfl,
      show convertTranslationsP l = convertEntriesGoP (groupPluralsP l) [] from rfl,
      groupPlurals_eq_P l hs,
      jsEntries_eq_self _ (safeL_keys_not_index hsg)]
    exact hgo (groupPluralsP l) [] (le_trans (jdepthL_groupPluralsP l) hd) hsg

theorem wfL_iff (m : List (String × JValue)) :
    wfL m = true ↔ (keysOf m).Nodup ∧ ∀ p ∈ m, wfV p.2 = true := by
  induction m with
  | nil => simp [wfL_nil, keysOf]
  | cons p rest ih =>
    obtain ⟨k, v⟩ := p
    rw [wfL_cons, keysOf_cons]
    simp only [Bool.and_eq_true, List.nodup_cons, List.mem_cons]
    constructor
    · rintro ⟨⟨hno, hv⟩, hrest⟩
      obtain ⟨hnd, hall⟩ := ih.mp hrest
      refine ⟨⟨?_, hnd⟩, ?_⟩
      · intro hm
        rw [← any_key_eq_mem_keysOf] at hm
        rw [hm] at hno
        simp at hno
      · rintro q (he | hm)
        · rw [he]
          exact hv
        · exact hall q hm
    · rintro ⟨⟨hnm, hnd⟩, hall⟩
      refine ⟨⟨?_, hall (k, v) (Or.inl rfl)⟩,
        ih.mpr ⟨hnd, fun q hm => hall q (Or.inr hm)⟩⟩
      by_contra hc
      simp only [Bool.not_eq_true, Bool.not_eq_false] at hc
      exact hnm ((any_key_eq_mem_keysOf _ _).mp (by simpa using hc))

theorem wfL_of_perm {m m' : List (String × JValue)} (hp : List.Perm m m')
    (h : wfL m = true) : wfL m' = true := by
  rw [wfL_iff] at h ⊢
  exact ⟨((hp.map Prod.fst).nodup_iff).mp h.1, fun p hm => h.2 p (hp.mem_iff.mpr hm)⟩

theorem keysOf_icuOfGroupsP_sub (pgs : List (String × List (String × JValue))) :
    ∀ res : List (String × JValue), ∀ k' ∈ keysOf (icuOfGroupsP res pgs),
      k' ∈ keysOf res ∨ k' ∈ keysOf pgs := by
  induction pgs with
  | nil =>
    intro res k' h
    exact Or.inl (by simpa [icuOfGroupsP] using h)
  | cons g rest ih =>
    intro res k' h
    rw [show icuOfGroupsP res (g :: rest)
        = icuOfGroupsP (setKey res g.1 (.str (createICUPlural g.2))) rest from by
      rw [icuOfGroupsP]] at h
    rcases ih _ k' h with hin | hin
    · rcases keysOf_setKey_sub res g.1 _ k' hin with hin2 | he
      · exact Or.inl hin2
      · exact Or.inr (by rw [keysOf_cons, he]; simp)
    · exact Or.inr (by rw [keysOf_cons]; exact List.mem_cons_of_mem _ hin)

theorem keysOf_groupPluralsGoP_fst_sub (l : List (String × JValue)) :
    ∀ res pgs, ∀ k' ∈ keysOf (groupPluralsGoP l res pgs).1,
      k' ∈ keysOf res ∨ k' ∈ nonPluralKeys l := by
  induction l with
  | nil =>
    intro res pgs k' h
    exact Or.inl (by simpa [groupPluralsGoP] using h)
  | cons p rest ih =>
    obtain ⟨k, v⟩ := p
    intro res pgs k' h
    by_cases hp : (parsePluralKey k).isSome
    · rw [groupPluralsGoP.eq_2, dif_pos hp] at h
      have hno : ¬ (parsePluralKey k).isNone = true := by
        simp [Option.isNone_iff_eq_none]
        exact Option.isSome_iff_exists.mp hp |>.elim (fun a ha => by simp [ha])
      rw [nonPluralKeys_cons, if_neg hno]
      exact ih _ _ k' h
    · have hiso : (parsePluralKey k).isNone = true := by
        cases hx : parsePluralKey k with
        | none => rfl
        | some y => rw [hx] at hp; simp at hp
      rw [nonPluralKeys_cons, if_pos hiso]
      by_cases h2 : isNestedObject v
      · rw [groupPluralsGoP.eq_2, dif_neg hp, dif_pos h2] at h
        rcases ih _ _ k' h with hin | hin
        · rcases keysOf_setKey_sub res k _ k' hin with hin2 | he
          · exact Or.inl hin2
          · exact Or.inr (by rw [he]; simp)
        · exact Or.inr (List.mem_cons_of_mem _ hin)
      · rw [groupPluralsGoP.eq_2, dif_neg hp, dif_neg h2] at h
        rcases ih _ _ k' h with hin | hin
        · rcases keysOf_setKey_sub res k _ k' hin with hin2 | he
          · exact Or.inl hin2
          · exact Or.inr (by rw [he]; simp)
        · exact Or.inr (List.mem_cons_of_mem _ hin)

/-!
Claims

Each claim of the specification audit is stated as one theorem below,
about the faithful converter definitions (`convertTranslations`,
`groupPlurals`, `createICUPlural`, ...).  Corrected claims carry a
counterexample theorem refuting the original wording, computed from the
same definitions.
-/

/-- C10: after plural-family compilation, `convertTranslations` runs the
leaf-rewriting pass over the synthesized ICU plural string itself, so for
`{"k_other": "{{n}}"}` the emitted branch `other{{n}}` matches the
double-brace pattern again and the final output is
`{count, plural, other{n}}`, not the single-pass result
`{count, plural, other{{n}}}`. -/
theorem claim_C10 :
    convertTranslations [("k_other", .str "{{n}}")]
      = [("k", .str "{count, plural, other{n}}")] ∧
    createICUPlural [("other", .str "{{n}}")] = "{count, plural, other{{n}}}" ∧
    convertInterpolation "{count, plural, other{{n}}}"
      = "{count, plural, other{n}}" := by
  have h1 : parsePluralKey "k_other" = some ("k", "other") := by decide
  refine ⟨?_, ?_, ?_⟩
  · simp [convertTranslations, convertEntriesGo, groupPlurals, groupPluralsGo,
      h1, setKey, jsAssign, jsEntries, isArrayIndex, isDigitChar, noLeadingZero,
      decimalVal, List.insertionSort, keysOf, protoNames, pluralInsert, icuOfGroups,
      createICUPlural, icuSelector, formMapping, branchText, convertInterpolation,
      convertNesting, interpAux, interpStep, nestAux, nestStep, notRBrace, notRParen,
      List.lookup, joinSep, isStringV, strVal, isNestedObject, objEntries]
  · simp [createICUPlural, jsEntries, isArrayIndex, isDigitChar, noLeadingZero,
      decimalVal, List.insertionSort, icuSelector, formMapping, branchText,
      convertInterpolation, interpAux, interpStep, notRBrace, List.lookup, joinSep]
  · simp [convertInterpolation, interpAux, interpStep, notRBrace]

/-- C1, counterexample: the claim says a `$t(...)` reference inside the
string value of a plural-suffixed key appears unchanged (not rewritten
to `[REF:...]`) inside the synthesized plural expression in the output.
On input `{"k_other": "See $t(x)"}` the output value is
`{count, plural, other{See [REF:x]}}` — the reference IS rewritten —
and is not the claimed unchanged string. -/
theorem claim_C1_counterexample :
    convertTranslations [("k_other", .str "See $t(x)")]
      = [("k", .str "{count, plural, other{See [REF:x]}}")] ∧
    convertTranslations [("k_other", .str "See $t(x)")]
      ≠ [("k", .str "{count, plural, other{See $t(x)}}")] := by
  have h1 : parsePluralKey "k_other" = some ("k", "other") := by decide
  have heval : convertTranslations [("k_other", .str "See $t(x)")]
      = [("k", .str "{count, plural, other{See [REF:x]}}")] := by
    simp [convertTranslations, convertEntriesGo, groupPlurals, groupPluralsGo,
      h1, setKey, jsAssign, jsEntries, isArrayIndex, isDigitChar, noLeadingZero,
      decimalVal, List.insertionSort, keysOf, protoNames, pluralInsert, icuOfGroups,
      createICUPlural, icuSelector, formMapping, branchText, convertInterpolation,
      convertNesting, interpAux, interpStep, nestAux, nestStep, notRBrace, notRParen,
      List.lookup, joinSep, isStringV, strVal, isNestedObject, objEntries]
  refine ⟨heval, ?_⟩
  rw [heval]
  simp

/-- C1, amended: `createICUPlural` itself applies only interpolation
rewriting to each branch text, but `convertTranslations` then runs the
full leaf pass (interpolation, then nesting) over the synthesized ICU
plural string, so for every branch text `s` the output value under the
base key is `convertNesting (convertInterpolation (createICUPlural
...))` — a `$t(...)` reference in a branch IS rewritten. -/
theorem claim_C1 (s : String) :
    createICUPlural [("other", .str s)]
      = "\x7bcount, plural, other\x7b" ++ convertInterpolation s ++ "\x7d\x7d" ∧
    convertTranslations [("k_other", .str s)]
      = [("k", .str (convertNesting (convertInterpolation
          (createICUPlural [("other", .str s)]))))] := by
  have h1 : parsePluralKey "k_other" = some ("k", "other") := by decide
  have hje : jsEntries [("other", JValue.str s)] = [("other", JValue.str s)] :=
    jsEntries_eq_self _ (by
      intro k hk
      simp [keysOf] at hk
      subst hk
      decide)
  constructor
  · simp only [createICUPlural, hje, List.map_cons, List.map_nil, joinSep,
      icuSelector_other, branchText_str]
    simp only [← String.append_assoc]
    rw [show ("\x7bcount, plural, " : String) ++ "other" = "\x7bcount, plural, other" from rfl,
      show ("\x7bcount, plural, other" : String) ++ "\x7b" = "\x7bcount, plural, other\x7b" from rfl,
      String.append_assoc ("\x7bcount, plural, other\x7b" ++ convertInterpolation s),
      show ("\x7d" : String) ++ "\x7d" = "\x7d\x7d" from rfl]
  · simp [convertTranslations, convertEntriesGo, groupPlurals, groupPluralsGo,
      h1, setKey, jsAssign, jsEntries, isArrayIndex, isDigitChar, noLeadingZero,
      decimalVal, List.insertionSort, keysOf, protoNames, pluralInsert, icuOfGroups,
      List.lookup, isStringV, strVal, isNestedObject, objEntries]

/-- C3: plural-family compilation maps `zero` to `=0` and every other
recognized form to itself, applies interpolation rewriting to each
branch text, emits `<selector>{<rewritten-text>}` per form in first-
appearance order, joins the branches with single spaces, wraps them as
`{count, plural, ...}` with the variable always the literal `count`;
in particular `{"item_zero": "No items", "item_one": "{{count}} item",
"item_other": "{{count}} items"}` converts to
`{"item": "{count, plural, =0{No items} one{{count} item}
other{{count} items}}"}`. -/
theorem claim_C3 :
    (∀ t0 t1 t2 t3 t4 t5 : String,
      createICUPlural
        [("zero", .str t0), ("one", .str t1), ("two", .str t2),
         ("few", .str t3), ("many", .str t4), ("other", .str t5)]
      = "\x7bcount, plural, =0\x7b" ++ convertInterpolation t0 ++
        "\x7d one\x7b" ++ convertInterpolation t1 ++
        "\x7d two\x7b" ++ convertInterpolation t2 ++
        "\x7d few\x7b" ++ convertInterpolation t3 ++
        "\x7d many\x7b" ++ convertInterpolation t4 ++
        "\x7d other\x7b" ++ convertInterpolation t5 ++ "\x7d\x7d") ∧
    convertTranslations
      [("item_zero", .str "No items"), ("item_one", .str "{{count}} item"),
       ("item_other", .str "{{count}} items")]
    = [("item", .str
        "{count, plural, =0{No items} one{{count} item} other{{count} items}}")] := by
  constructor
  · intro t0 t1 t2 t3 t4 t5
    have hje : jsEntries
        [("zero", JValue.str t0), ("one", JValue.str t1), ("two", JValue.str t2),
         ("few", JValue.str t3), ("many", JValue.str t4), ("other", JValue.str t5)]
      = [("zero", JValue.str t0), ("one", JValue.str t1), ("two", JValue.str t2),
         ("few", JValue.str t3), ("many", JValue.str t4), ("other", JValue.str t5)] :=
      jsEntries_eq_self _ (by
        intro k hk
        simp [keysOf] at hk
        rcases hk with rfl | rfl | rfl | rfl | rfl | rfl <;> decide)
    simp only [createICUPlural, hje, List.map_cons, List.map_nil, joinSep,
      icuSelector_zero, icuSelector_one, icuSelector_two, icuSelector_few,
      icuSelector_many, icuSelector_other, branchText_str]
    apply String.ext
    simp [String.data_append]
  · have h1 : parsePluralKey "item_zero" = some ("item", "zero") := by decide
    have h2 : parsePluralKey "item_one" = some ("item", "one") := by decide
    have h3 : parsePluralKey "item_other" = some ("item", "other") := by decide
    simp [convertTranslations, convertEntriesGo, groupPlurals, groupPluralsGo,
      h1, h2, h3, setKey, jsAssign, jsEntries, isArrayIndex, isDigitChar,
      noLeadingZero, decimalVal, List.insertionSort, keysOf, protoNames,
      pluralInsert, icuOfGroups, createICUPlural, icuSelector, formMapping,
      branchText, convertInterpolation, convertNesting, interpAux, interpStep,
      nestAux, nestStep, notRBrace, notRParen, List.lookup, joinSep,
      isStringV, strVal, isNestedObject, objEntries]

/-- C4: interpolation rewriting replaces every occurrence of `{{`
followed by one or more non-`}` characters followed by `}}` with
`{` + content + `}`, copying the content verbatim (including format
hints), and rewrites all occurrences: at any match position the scanner
emits the rewritten placeholder and continues on the remaining text, so
later occurrences are rewritten as well; `{{var, format}}` becomes
`{var, format}` verbatim; and `{"greeting": "Hello {{name}}!"}`
converts to `{"greeting": "Hello {name}!"}`. -/
theorem claim_C4 :
    (∀ (c rest : List Char), c ≠ [] → (∀ ch ∈ c, notRBrace ch) →
      interpAux ('{' :: '{' :: (c ++ '}' :: '}' :: rest))
        = '{' :: (c ++ '}' :: interpAux rest)) ∧
    convertInterpolation "{{var, format}}" = "{var, format}" ∧
    convertInterpolation "{{a}} and {{b}}" = "{a} and {b}" ∧
    convertTranslations [("greeting", .str "Hello {{name}}!")]
      = [("greeting", .str "Hello {name}!")] := by
  refine ⟨?_, ?_, ?_, ?_⟩
  · intro c rest hne hall
    have hstep := interpStep_of_run c rest hne hall
    rw [interpAux.eq_2]
    simp [hstep]
  · simp [convertInterpolation, interpAux, interpStep, notRBrace]
  · simp [convertInterpolation, interpAux, interpStep, notRBrace]
  · have h1 : parsePluralKey "greeting" = none := by decide
    simp [convertTranslations, convertEntriesGo, groupPlurals, groupPluralsGo,
      h1, setKey, jsAssign, jsEntries, isArrayIndex, isDigitChar, noLeadingZero,
      decimalVal, List.insertionSort, keysOf, protoNames, pluralInsert, icuOfGroups,
      convertInterpolation, convertNesting, interpAux, interpStep, nestAux, nestStep,
      notRBrace, notRParen, isStringV, strVal, isNestedObject, objEntries]

/-- Witness for C4: the general rewrite shape applied at a concrete
match, `x{{name}}y` rewriting to `x{name}y`. -/
theorem claim_C4_witness :
    interpAux ('{' :: '{' :: ("name".data ++ '}' :: '}' :: "y".data))
      = '{' :: ("name".data ++ '}' :: interpAux "y".data) :=
  claim_C4.1 "name".data "y".data (by decide) (by decide)

/-- C6: when a level has both a plain key `foo` and plural-suffixed keys
with base `foo`, the output value under `foo` is the synthesized ICU
plural expression, not the plain key's value: plural compilation runs
after plain-key copying and overwrites the same-named plain key, for
every plain value `s` and branch text `t`. -/
theorem claim_C6 (s t : String) :
    convertTranslations [("foo", .str s), ("foo_one", .str t)]
      = [("foo", .str (convertNesting (convertInterpolation
          (createICUPlural [("one", .str t)]))))] ∧
    convertTranslations [("foo", .str "Hello"), ("foo_one", .str "x")]
      = [("foo", .str "{count, plural, one{x}}")] ∧
    JValue.str "{count, plural, one{x}}" ≠ JValue.str "Hello" := by
  have h1 : parsePluralKey "foo" = none := by decide
  have h2 : parsePluralKey "foo_one" = some ("foo", "one") := by decide
  refine ⟨?_, ?_, by simp⟩
  · simp [convertTranslations, convertEntriesGo, groupPlurals, groupPluralsGo,
      h1, h2, setKey, jsAssign, jsEntries, isArrayIndex, isDigitChar, noLeadingZero,
      decimalVal, List.insertionSort, keysOf, protoNames, pluralInsert, icuOfGroups,
      List.lookup, isStringV, strVal, isNestedObject, objEntries]
  · simp [convertTranslations, convertEntriesGo, groupPlurals, groupPluralsGo,
      h1, h2, setKey, jsAssign, jsEntries, isArrayIndex, isDigitChar, noLeadingZero,
      decimalVal, List.insertionSort, keysOf, protoNames, pluralInsert, icuOfGroups,
      createICUPlural, icuSelector, formMapping, branchText, convertInterpolation,
      convertNesting, interpAux, interpStep, nestAux, nestStep, notRBrace, notRParen,
      List.lookup, joinSep, isStringV, strVal, isNestedObject, objEntries]

/-- C2, counterexample: the claim says that whenever a subset of the six
plural-suffixed sibling keys `K_zero .. K_other` (string values) appears
at one level, the converted output at that level contains exactly one
key `K`.  At a nested level with `K = "a_one"` (a base that itself
matches the plural pattern), the second grouping pass performed on the
nested level re-parses the synthesized key `a_one` and regroups it under
`a`: the output level contains no key `a_one` at all. -/
theorem claim_C2_counterexample :
    convertTranslations
      [("x", .obj [("a_one_zero", .str "s"), ("a_one_other", .str "t")])]
      = [("x", .obj [("a", .str
          "{count, plural, one{{count, plural, =0{s} other{t}}}}")])] ∧
    (∀ v : JValue, ("a_one", v) ∉
      [("a", JValue.str "{count, plural, one{{count, plural, =0{s} other{t}}}}")]) := by
  have h1 : parsePluralKey "x" = none := by decide
  have h2 : parsePluralKey "a_one_zero" = some ("a_one", "zero") := by decide
  have h3 : parsePluralKey "a_one_other" = some ("a_one", "other") := by decide
  have h4 : parsePluralKey "a_one" = some ("a", "one") := by decide
  have h5 : parsePluralKey "a" = none := by decide
  constructor
  · simp [convertTranslations, convertEntriesGo, groupPlurals, groupPluralsGo,
      h1, h2, h3, h4, h5, setKey, jsAssign, jsEntries, isArrayIndex, isDigitChar,
      noLeadingZero, decimalVal, List.insertionSort, keysOf, protoNames,
      pluralInsert, icuOfGroups, createICUPlural, icuSelector, formMapping,
      branchText, convertInterpolation, convertNesting, interpAux, interpStep,
      nestAux, nestStep, notRBrace, notRParen, List.lookup, joinSep,
      isStringV, strVal, isNestedObject, objEntries]
  · intro v
    simp

/-- C9, counterexample: the claim says synthesized plural families
appear in the output key order after all plain and nested keys of the
level.  When a plain key equal to the family base exists, the family
replaces it in place: on `{"foo": "p", "x": "u", "foo_one": "t"}` the
family key `foo` is the first output key, before the plain key `x`. -/
theorem claim_C9_counterexample :
    convertTranslations [("foo", .str "p"), ("x", .str "u"), ("foo_one", .str "t")]
      = [("foo", .str "{count, plural, one{t}}"), ("x", .str "u")] ∧
    (convertTranslations
      [("foo", .str "p"), ("x", .str "u"), ("foo_one", .str "t")]).map Prod.fst
      = ["foo", "x"] := by
  have h1 : parsePluralKey "foo" = none := by decide
  have h2 : parsePluralKey "x" = none := by decide
  have h3 : parsePluralKey "foo_one" = some ("foo", "one") := by decide
  have heval : convertTranslations
      [("foo", .str "p"), ("x", .str "u"), ("foo_one", .str "t")]
      = [("foo", .str "{count, plural, one{t}}"), ("x", .str "u")] := by
    simp [convertTranslations, convertEntriesGo, groupPlurals, groupPluralsGo,
      h1, h2, h3, setKey, jsAssign, jsEntries, isArrayIndex, isDigitChar,
      noLeadingZero, decimalVal, List.insertionSort, keysOf, protoNames,
      pluralInsert, icuOfGroups, createICUPlural, icuSelector, formMapping,
      branchText, convertInterpolation, convertNesting, interpAux, interpStep,
      nestAux, nestStep, notRBrace, notRParen, List.lookup, joinSep,
      isStringV, strVal, isNestedObject, objEntries]
  exact ⟨heval, by rw [heval]; simp⟩

/-- C7, counterexample: the claim says every array value anywhere in the
input is carried into the output unmodified as an opaque scalar.  An
array under a plural-suffixed key is routed into the plural-group
accumulator and stringified by the template literal into the ICU branch
text: on `{"k_other": ["a", "b"]}` the output is
`{"k": "{count, plural, other{a,b}}"}` and no array survives. -/
theorem claim_C7_counterexample :
    convertTranslations [("k_other", .arr [.str "a", .str "b"])]
      = [("k", .str "{count, plural, other{a,b}}")] ∧
    (∀ p ∈ convertTranslations [("k_other", .arr [.str "a", .str "b"])],
      p.2 ≠ JValue.arr [.str "a", .str "b"]) := by
  have h1 : parsePluralKey "k_other" = some ("k", "other") := by decide
  have heval : convertTranslations [("k_other", .arr [.str "a", .str "b"])]
      = [("k", .str "{count, plural, other{a,b}}")] := by
    simp [convertTranslations, convertEntriesGo, groupPlurals, groupPluralsGo,
      h1, setKey, jsAssign, jsEntries, isArrayIndex, isDigitChar, noLeadingZero,
      decimalVal, List.insertionSort, keysOf, protoNames, pluralInsert, icuOfGroups,
      createICUPlural, icuSelector, formMapping, branchText, jsToString, jsArrJoin,
      convertInterpolation, convertNesting, interpAux, interpStep, nestAux, nestStep,
      notRBrace, notRParen, List.lookup, joinSep,
      isStringV, strVal, isNestedObject, objEntries]
  refine ⟨heval, ?_⟩
  rw [heval]
  simp

/-- C9, amended: for every converted tree level whose keys are safe
(no `__proto__`, no array-index keys — which `Object.entries` would
hoist to the front — and no family base that is an inherited
`Object.prototype` name), provided no synthesized family base collides
with a plain/nested key of the level (when it does, the family
overwrites that key in place — see the counterexample), the synthesized
plural families appear after all plain and nested keys of the level, in
iteration order of first appearance of their base key: the output key
list is exactly the non-plural keys in source order followed by the
family bases in first-appearance order. -/
theorem claim_C9 (l : List (String × JValue))
    (hsafe : safeL l = true)
    (hnd : (keysOf l).Nodup)
    (hcol : ∀ b ∈ pluralBases l, b ∉ nonPluralKeys l) :
    keysOf (convertTranslations l) = nonPluralKeys l ++ pluralBases l := by
  rw [convertTranslations_eq_P (jdepthL l) l (le_refl _) hsafe]
  have h1 := keysOf_groupPluralsGoP_fst l [] [] hnd (by simp [keysOf])
  have h2 := keysOf_groupPluralsGoP_snd l [] []
  rw [keysOf_nil, List.nil_append] at h1
  rw [show keysOf ([] : List (String × List (String × JValue))) = [] from rfl] at h2
  have hnp_nodup : (nonPluralKeys l).Nodup := by
    have hsub : (l.filter (fun p => (parsePluralKey p.1).isNone)).Sublist l :=
      List.filter_sublist l
    have : (nonPluralKeys l).Sublist (keysOf l) := hsub.map Prod.fst
    exact this.nodup hnd
  have hpb_nodup : (pluralBases l).Nodup := pluralBasesAcc_nodup l [] (by simp)
  have hgrp : keysOf (groupPluralsP l) = nonPluralKeys l ++ pluralBases l := by
    rw [groupPluralsP_def]
    rw [keysOf_icuOfGroupsP _ _ ?_ ?_]
    · rw [h1, h2]
      rfl
    · intro b hb
      rw [h2] at hb
      rw [h1]
      exact hcol b hb
    · rw [h2]
      exact hpb_nodup
  have hfinal := keysOf_convertEntriesGoP (groupPluralsP l) [] ?_ (by simp [keysOf])
  · rw [convertTranslationsP, hfinal, hgrp, keysOf_nil, List.nil_append]
  · rw [hgrp]
    simp only [List.nodup_append]
    exact ⟨hnp_nodup, hpb_nodup, fun b hb hb2 => hcol b hb2 hb⟩

/-- Witness for C9: on `{"a": "x", "b_one": "y", "b_other": "z"}` the
hypotheses hold and the output key order is `["a", "b"]` — the family
base after the plain key. -/
theorem claim_C9_witness :
    keysOf (convertTranslations
      [("a", .str "x"), ("b_one", .str "y"), ("b_other", .str "z")])
      = ["a", "b"] := by
  have hka : safeKey "a" = true := by
    rw [safeKey_of_parse_none (by decide)]
    decide
  have hkb1 : safeKey "b_one" = true := by
    rw [safeKey_of_parse_some (show parsePluralKey "b_one" = some ("b", "one") by decide),
      safeKey_of_parse_none (show parsePluralKey "b" = none by decide)]
    decide
  have hkb2 : safeKey "b_other" = true := by
    rw [safeKey_of_parse_some
        (show parsePluralKey "b_other" = some ("b", "other") by decide),
      safeKey_of_parse_none (show parsePluralKey "b" = none by decide)]
    decide
  have hs : safeL [("a", JValue.str "x"), ("b_one", JValue.str "y"),
      ("b_other", JValue.str "z")] = true := by
    rw [safeL_cons, safeL_cons, safeL_cons, safeL_nil]
    simp [hka, hkb1, hkb2, isNestedObject]
  have h := claim_C9 [("a", .str "x"), ("b_one", .str "y"), ("b_other", .str "z")]
    hs (by decide) (by decide)
  rw [h]
  rfl

/-- C7, amended: an array value whose key is not plural-suffixed, and
whose key is not the base of any plural family at the same level, is
carried into the converted output unmodified as an opaque scalar,
provided the level's keys are safe (in particular the array's key is
not `__proto__`, whose assignment creates no own key — see the
counterexample for the plural-suffixed case, where the array is
absorbed into the synthesized ICU string by JavaScript
stringification). -/
theorem claim_C7 (l : List (String × JValue)) (k : String) (a : List JValue)
    (hsafe : safeL l = true)
    (hmem : (k, JValue.arr a) ∈ l)
    (hnd : (keysOf l).Nodup)
    (hk : parsePluralKey k = none)
    (hcol : ∀ b ∈ pluralBases l, b ≠ k) :
    (k, JValue.arr a) ∈ convertTranslations l := by
  rw [convertTranslations_eq_P (jdepthL l) l (le_refl _) hsafe]
  have h1 : (k, JValue.arr a) ∈ (groupPluralsGoP l [] []).1 :=
    mem_groupPluralsGoP_fst l [] [] hmem hk (by simp [isNestedObject]) hnd
      (by simp [keysOf])
  have h2 : (k, JValue.arr a) ∈ groupPluralsP l := by
    rw [groupPluralsP_def]
    apply mem_icuOfGroupsP _ _ h1
    intro b hb
    rw [keysOf_groupPluralsGoP_snd l [] []] at hb
    exact hcol b hb
  exact mem_convertEntriesGoP _ _ h2 (by simp [isStringV]) (by simp [isNestedObject])
    (nodup_keysOf_groupPluralsP l) (by simp [keysOf])

/-- Witness for C7: the array under the non-plural key `lst` survives
conversion unchanged next to an unrelated plural family. -/
theorem claim_C7_witness :
    ("lst", JValue.arr [.num 1]) ∈
      convertTranslations [("lst", .arr [.num 1]), ("b_one", .str "y")] := by
  have hkl : safeKey "lst" = true := by
    rw [safeKey_of_parse_none (by decide)]
    decide
  have hkb : safeKey "b_one" = true := by
    rw [safeKey_of_parse_some (show parsePluralKey "b_one" = some ("b", "one") by decide),
      safeKey_of_parse_none (show parsePluralKey "b" = none by decide)]
    decide
  have hs : safeL [("lst", JValue.arr [.num 1]), ("b_one", JValue.str "y")] = true := by
    rw [safeL_cons, safeL_cons, safeL_nil]
    simp [hkl, hkb, isNestedObject]
  exact claim_C7 [("lst", .arr [.num 1]), ("b_one", .str "y")] "lst" [.num 1]
    hs (by simp) (by decide) (by decide) (by decide)

/-- C2, amended: at the top level of a safe tree (one grouping pass;
no `__proto__` or array-index keys, no family base that is an inherited
`Object.prototype` member — such a family is silently dropped by the
truthy `!pluralGroups[baseKey]` test), for a level with distinct keys
containing a non-empty plural family of string-valued entries at base
`K`, provided none of the keys `K_zero`..`K_other` is itself the base
of another family (when a family lives at such a base, its synthesized
key re-introduces a suffixed key — see the counterexample for the
nested re-grouping failure of the original claim), the converted level
holds exactly one key `K`; its value is the single string obtained by
interpolation and nesting rewriting of the ICU plural compiled from the
family (`createICUPlural` emits one `selector{text}` branch per input
form), that string starts with `{count, plural, ` and ends with `}`,
and no key `K_zero`..`K_other` remains. -/
theorem claim_C2 (l : List (String × JValue)) (K : String)
    (hsafe : safeL l = true)
    (hnd : (keysOf l).Nodup)
    (hfam : familyOf K l ≠ [])
    (hstr : ∀ p ∈ familyOf K l, isStringV p.2 = true)
    (hresb : ∀ f ∈ pluralForms, (K ++ "_" ++ f) ∉ pluralBases l) :
    (keysOf (convertTranslations l)).count K = 1 ∧
    (K, .str (convertNesting (convertInterpolation (createICUPlural (familyOf K l)))))
      ∈ convertTranslations l ∧
    (∃ t, (convertNesting (convertInterpolation (createICUPlural (familyOf K l)))).data
        = "\x7bcount, plural, ".data ++ t) ∧
    ((convertNesting (convertInterpolation (createICUPlural (familyOf K l)))).data).getLast?
        = some '}' ∧
    ∀ f ∈ pluralForms, (K ++ "_" ++ f) ∉ keysOf (convertTranslations l) := by
  rw [convertTranslations_eq_P (jdepthL l) l (le_refl _) hsafe]
  have hlookup := lookup_groupPluralsGoP_snd l [] [] K
  have hnemp : ¬ ((familyOf K l).isEmpty = true) := by
    simpa [List.isEmpty_iff] using hfam
  rw [if_neg hnemp] at hlookup
  have hfamnd : (keysOf (familyOf K l)).Nodup := nodup_keysOf_familyOf hnd
  rw [show ((([] : List (String × List (String × JValue))).lookup K).getD
      ([] : List (String × JValue))) = [] from rfl,
    famFold_append [] _ (by simp [keysOf]) hfamnd, List.nil_append] at hlookup
  have hmem2 : (K, familyOf K l) ∈ (groupPluralsGoP l [] []).2 :=
    lookup_some_mem hlookup
  have hpgs_nd : (keysOf (groupPluralsGoP l [] []).2).Nodup := by
    rw [keysOf_groupPluralsGoP_snd l [] []]
    exact pluralBasesAcc_nodup l _ (by simp [keysOf])
  have hmem3 : (K, .str (createICUPlural (familyOf K l))) ∈ groupPluralsP l := by
    rw [groupPluralsP_def]
    exact mem_icuOfGroupsP_of_base _ _ hmem2 hpgs_nd
  have hmem4 : (K, convertValueP (.str (createICUPlural (familyOf K l))))
      ∈ convertTranslationsP l := by
    rw [convertTranslationsP]
    exact mem_convertEntriesGoP_value _ [] hmem3 (nodup_keysOf_groupPluralsP l)
      (by simp [keysOf])
  have hcv : convertValueP (.str (createICUPlural (familyOf K l)))
      = .str (convertNesting (convertInterpolation (createICUPlural (familyOf K l)))) := by
    simp [convertValueP, isStringV, strVal]
  rw [hcv] at hmem4
  have hkeq : keysOf (convertTranslationsP l) = keysOf (groupPluralsP l) := by
    rw [convertTranslationsP, keysOf_convertEntriesGoP _ [] (nodup_keysOf_groupPluralsP l)
      (by simp [keysOf]), keysOf_nil, List.nil_append]
  have hnout : (keysOf (convertTranslationsP l)).Nodup := by
    rw [hkeq]
    exact nodup_keysOf_groupPluralsP l
  have hcount : (keysOf (convertTranslationsP l)).count K = 1 :=
    List.count_eq_one_of_mem hnout (mem_keysOf_of_mem hmem4)
  obtain ⟨p0, hp0⟩ := List.exists_mem_of_ne_nil _ hfam
  obtain ⟨f0, v0⟩ := p0
  obtain ⟨k0, hk0mem, hk0p⟩ := mem_familyOf hp0
  have hKdot : K.data.all dotChar = true := (parsePluralKey_recompose hk0p).2.2.1
  have hKne : K.data ≠ [] := (parsePluralKey_recompose hk0p).2.2.2
  have hresid : ∀ f ∈ pluralForms, (K ++ "_" ++ f) ∉ keysOf (convertTranslationsP l) := by
    intro f hf hmem5
    rw [hkeq, groupPluralsP_def] at hmem5
    rcases keysOf_icuOfGroupsP_sub _ _ _ hmem5 with hin | hin
    · rcases keysOf_groupPluralsGoP_fst_sub l [] [] _ hin with hin2 | hin2
      · simp [keysOf] at hin2
      · unfold nonPluralKeys at hin2
        obtain ⟨p1, hp1mem, hp1e⟩ := List.mem_map.mp hin2
        have hp1none := (List.mem_filter.mp hp1mem).2
        simp only [hp1e] at hp1none
        have hsome := parsePluralKey_concat_isSome hKdot hKne hf
        rw [Option.isNone_iff_eq_none] at hp1none
        rw [hp1none] at hsome
        simp at hsome
    · rw [keysOf_groupPluralsGoP_snd l [] []] at hin
      exact hresb f hf (by simpa using hin)
  have hshape := icu_pipeline_shape (familyOf K l)
  exact ⟨hcount, hmem4, hshape.1, hshape.2, hresid⟩

/-- Witness for C2: on `{"item": "p", "item_one": "x"}` — where the
family base even collides with a plain key — the hypotheses hold, the
output has the family key `item` exactly once with the rewritten ICU
plural string, and `item_one` is gone. -/
theorem claim_C2_witness :
    (keysOf (convertTranslations
        [("item", JValue.str "p"), ("item_one", JValue.str "x")])).count "item" = 1 ∧
    ("item", JValue.str (convertNesting (convertInterpolation (createICUPlural
        (familyOf "item" [("item", JValue.str "p"), ("item_one", JValue.str "x")])))))
      ∈ convertTranslations [("item", JValue.str "p"), ("item_one", JValue.str "x")] ∧
    "item_one" ∉ keysOf (convertTranslations
        [("item", JValue.str "p"), ("item_one", JValue.str "x")]) := by
  have hki : safeKey "item" = true := by
    rw [safeKey_of_parse_none (by decide)]
    decide
  have hk1 : safeKey "item_one" = true := by
    rw [safeKey_of_parse_some
        (show parsePluralKey "item_one" = some ("item", "one") by decide),
      safeKey_of_parse_none (show parsePluralKey "item" = none by decide)]
    decide
  have hs : safeL [("item", JValue.str "p"), ("item_one", JValue.str "x")] = true := by
    rw [safeL_cons, safeL_cons, safeL_nil]
    simp [hki, hk1, isNestedObject]
  have hpe1 : parsePluralKey "item_one" = some ("item", "one") := by decide
  have hpe0 : parsePluralKey "item" = none := by decide
  have h := claim_C2 [("item", JValue.str "p"), ("item_one", JValue.str "x")] "item"
    hs (by decide)
    (by simp [familyOf, List.filterMap_cons, hpe1, hpe0])
    (by decide) (by decide)
  refine ⟨h.1, h.2.1, ?_⟩
  have h5 := h.2.2.2.2 "one" (by decide)
  rw [show ("item" ++ "_" ++ "one" : String) = "item_one" from rfl] at h5
  exact h5

/-- C5, counterexample: the claim says that for every input tree with no
plural-suffixed key the output has the same key set and nesting shape at
every level.  The own key `__proto__` (reachable via `JSON.parse`)
refutes it: `result["__proto__"] = ...` invokes the inherited
`Object.prototype.__proto__` setter, which replaces the prototype
instead of creating an own key, so `{"__proto__": {"a": "b"}}` — a
plural-free, well-formed tree — converts to `{}`. -/
theorem claim_C5_counterexample :
    noPluralL [("__proto__", JValue.obj [("a", JValue.str "b")])] = true ∧
    wfL [("__proto__", JValue.obj [("a", JValue.str "b")])] = true ∧
    convertTranslations [("__proto__", JValue.obj [("a", JValue.str "b")])] = [] ∧
    eraseStrL (convertTranslations [("__proto__", JValue.obj [("a", JValue.str "b")])])
      ≠ eraseStrL [("__proto__", JValue.obj [("a", JValue.str "b")])] := by
  have h1 : parsePluralKey "__proto__" = none := by decide
  have h2 : parsePluralKey "a" = none := by decide
  have hnp : noPluralL [("__proto__", JValue.obj [("a", JValue.str "b")])] = true := by
    have hinner : noPluralL [("a", JValue.str "b")] = true := by
      rw [noPluralL_cons, noPluralL_nil]
      decide
    rw [noPluralL_cons, noPluralL_nil]
    simp [isNestedObject_obj, objEntries_obj, hinner, h1]
  have hwf : wfL [("__proto__", JValue.obj [("a", JValue.str "b")])] = true := by
    have hinner : wfL [("a", JValue.str "b")] = true := by
      rw [wfL_cons, wfL_nil]
      simp [wfV, isNestedObject]
    rw [wfL_cons, wfL_nil]
    simp [wfV, isNestedObject_obj, objEntries_obj, hinner]
  have heval : convertTranslations [("__proto__", JValue.obj [("a", JValue.str "b")])]
      = [] := by
    simp [convertTranslations, convertEntriesGo, groupPlurals, groupPluralsGo,
      h1, h2, setKey, jsAssign, jsEntries, isArrayIndex, isDigitChar, noLeadingZero,
      decimalVal, List.insertionSort, keysOf, protoNames, pluralInsert, icuOfGroups,
      convertInterpolation, convertNesting, interpAux, interpStep, nestAux, nestStep,
      notRBrace, notRParen, isStringV, strVal, isNestedObject, objEntries]
  refine ⟨hnp, hwf, heval, ?_⟩
  rw [heval, eraseStrL_nil, eraseStrL_cons]
  simp

/-- C5, amended: on a safe input tree (no `__proto__` key at any level —
assigning it creates no own key — and no array-index keys, which
`Object.entries` would reorder) with no plural-suffixed key and distinct
keys on every level, the conversion preserves the key list and nesting
shape of every level and can change only the contents of string leaves:
blanking every string leaf on both sides yields identical trees. -/
theorem claim_C5 (l : List (String × JValue))
    (hsafe : safeL l = true)
    (hnp : noPluralL l = true) (hwf : wfL l = true) :
    eraseStrL (convertTranslations l) = eraseStrL l := by
  rw [convertTranslations_eq_P (jdepthL l) l (le_refl _) hsafe]
  exact conv_noPlural_erase (jdepthL l) l (le_refl _) hnp hwf

/-- Witness for C5: a two-entry level with a string leaf and a numeric
leaf and no plural-suffixed key satisfies the hypotheses, and the
converted tree has the same blanked shape. -/
theorem claim_C5_witness :
    safeL [("greeting", JValue.str "Hello {{name}}"), ("n", JValue.num 3)] = true ∧
    noPluralL [("greeting", JValue.str "Hello {{name}}"), ("n", JValue.num 3)] = true ∧
    wfL [("greeting", JValue.str "Hello {{name}}"), ("n", JValue.num 3)] = true ∧
    eraseStrL (convertTranslations
        [("greeting", JValue.str "Hello {{name}}"), ("n", JValue.num 3)])
      = eraseStrL [("greeting", JValue.str "Hello {{name}}"), ("n", JValue.num 3)] := by
  have hkg : safeKey "greeting" = true := by
    rw [safeKey_of_parse_none (by decide)]
    decide
  have hkn : safeKey "n" = true := by
    rw [safeKey_of_parse_none (by decide)]
    decide
  have hs : safeL [("greeting", JValue.str "Hello {{name}}"), ("n", JValue.num 3)]
      = true := by
    rw [safeL_cons, safeL_cons, safeL_nil]
    simp [hkg, hkn, isNestedObject]
  have h1 : noPluralL [("greeting", JValue.str "Hello {{name}}"), ("n", JValue.num 3)]
      = true := by
    rw [noPluralL_cons, noPluralL_cons, noPluralL_nil]
    decide
  have h2 : wfL [("greeting", JValue.str "Hello {{name}}"), ("n", JValue.num 3)]
      = true := by
    rw [wfL_cons, wfL_cons, wfL_nil]
    decide
  exact ⟨hs, h1, h2, claim_C5 _ hs h1 h2⟩
